import Mathlib

/-!
# vmmlib `tensor3`: slices, unfoldings and mode products

A shallow embedding of `include/vmmlib/tensor3.hpp`.

* A `tensor3< I1, I2, I3, T >` is its member `array[ I3 ]` of `I1 x I2` matrices, so
  `t.array i3 i1 i2` is the element the source writes `t( i1, i2, i3 )`.
* Indices are `size_t` in the source and natural numbers here.  Every operation that takes an
  index returns an `Option`: `none` stands for an index outside the extent (the
  `VMMLIB_ERROR` of a `VMMLIB_SAFE_ACCESSORS` build, undefined behaviour otherwise).
* Methods that mutate `this` or an out-parameter take the old value and return the new one.
* `new X()` does not initialise the storage; its contents are given by the parameter `uninit`,
  over which every theorem quantifies.
-/

namespace vmml

/-! ## Loops -/

/-- The loop `for( size_t i = 0; i < n; ++i ) body( i )` over a state, stopping at the first
failure of the body. -/
def forLoop {σ : Type} (n : Nat) (body : Nat → σ → Option σ) (s : σ) : Option σ :=
  match n with
  | 0 => some s
  | k + 1 => (forLoop k body s).bind (body k)

/-! ## The matrix and vector primitives -/

/-- Modelled from the spec: the 1-D primitive `vector< M, T >` of `vmmlib/vector.hpp` (absent
from the sources), a dense container of `M` values with indexed access. -/
abbrev vector (M : Nat) (T : Type) := Fin M → T

/-- Modelled from the spec: the 2-D primitive `matrix< M, N, T >` of `vmmlib/matrix.hpp`
(absent from the sources), a dense container with `M` rows and `N` columns; `m row col` is the
element `m( row, col )`. -/
abbrev matrix (M N : Nat) (T : Type) := Fin M → Fin N → T

section primitives

variable {T : Type} {M N P : Nat}

/-- Modelled from the spec: indexed element access `m.at( row, col )` of the matrix primitive,
failing on an index outside the extents (`at` is reserved in Lean, hence `at_`). -/
def matrix.at_ (m : matrix M N T) (row col : Nat) : Option T :=
  if h : row < M ∧ col < N then some (m ⟨row, h.1⟩ ⟨col, h.2⟩) else none

/-- Modelled from the spec: `m.get_column( col )` of the matrix primitive, the column as a
vector of length `M`. -/
def matrix.get_column (m : matrix M N T) (col : Nat) : Option (vector M T) :=
  if h : col < N then some (fun r => m r ⟨col, h⟩) else none

/-- Modelled from the spec: `m.set_column( col, column )` of the matrix primitive: column `col`
is replaced, every other column is kept. -/
def matrix.set_column (m : matrix M N T) (col : Nat) (column : vector M T) :
    Option (matrix M N T) :=
  if col < N then some (fun r c => if c.val = col then column r else m r c) else none

/-- Modelled from the spec: `m.get_row( row )` of the matrix primitive, the row as a vector of
length `N`. -/
def matrix.get_row (m : matrix M N T) (row : Nat) : Option (vector N T) :=
  if h : row < M then some (fun c => m ⟨row, h⟩ c) else none

/-- Modelled from the spec: `m.set_row( row, row_values )` of the matrix primitive: row `row`
is replaced, every other row is kept. -/
def matrix.set_row (m : matrix M N T) (row : Nat) (row_values : vector N T) :
    Option (matrix M N T) :=
  if row < M then some (fun r c => if r.val = row then row_values c else m r c) else none

/-- Modelled from the spec: `transpose( m )` of the matrix primitive. -/
def matrix.transpose (m : matrix M N T) : matrix N M T :=
  fun i j => m j i

/-- Modelled from the spec: `result.multiply( left, right )` of the matrix primitive, the
matrix-matrix product; the receiver is overwritten, so only the product is returned. -/
def matrix.multiply [CommRing T] (left : matrix M P T) (right : matrix P N T) : matrix M N T :=
  fun i k => ∑ p : Fin P, left i p * right p k

/-- Modelled from the spec: exact `operator==` of the matrix primitive. -/
def matrix.operator_eq [DecidableEq T] (a b : matrix M N T) : Bool :=
  decide (a = b)

/-- Modelled from the spec: the identity matrix of the matrix primitive. -/
def matrix.identity [CommRing T] : matrix M M T :=
  fun i j => if i = j then 1 else 0

end primitives

/-! ## Storage -/

/-- The class `tensor3< I1, I2, I3, T >`: its only data member is `array[ I3 ]`, a series of
`I3` frontal slices, each a `matrix< I1, I2, T >`. -/
structure tensor3 (I1 I2 I3 : Nat) (T : Type) where
  array : Fin I3 → matrix I1 I2 T

section storage

variable {T : Type} {I1 I2 I3 : Nat}

/-- The read `array[ i3 ]`. -/
def tensor3.slice (t : tensor3 I1 I2 I3 T) (i3 : Nat) : Option (matrix I1 I2 T) :=
  if h : i3 < I3 then some (t.array ⟨i3, h⟩) else none

/-- The write `array[ i3 ] = m`. -/
def tensor3.set_slice (t : tensor3 I1 I2 I3 T) (i3 : Nat) (m : matrix I1 I2 T) :
    Option (tensor3 I1 I2 I3 T) :=
  if i3 < I3 then some ⟨fun k => if k.val = i3 then m else t.array k⟩ else none

/-- The accessor `at( i1, i2, i3 )`, also `operator()( i1, i2, i3 )` which returns
`at( i1, i2, i3 )`. -/
def tensor3.at_ (t : tensor3 I1 I2 I3 T) (i1 i2 i3 : Nat) : Option T :=
  if i3 ≥ I3 then none
  else (t.slice i3).bind (fun a => matrix.at_ a i1 i2)

/-- The default constructor `tensor3()`: nothing is initialised, so every frontal slice holds
whatever fresh storage holds. -/
def tensor3.fresh (uninit : (M N : Nat) → matrix M N T) : tensor3 I1 I2 I3 T :=
  ⟨fun _ => uninit I1 I2⟩

end storage

/-! ## Slice getters -/

section getters

variable {T : Type} {I1 I2 I3 : Nat}

/-- The getter `get_frontal_slice_fwd( i3, data )`: `data = array[ i3 ]`. -/
def tensor3.get_frontal_slice_fwd (t : tensor3 I1 I2 I3 T) (i3 : Nat)
    (_data : matrix I1 I2 T) : Option (matrix I1 I2 T) :=
  if i3 ≥ I3 then none
  else t.slice i3

/-- The getter `get_lateral_slice_bwd( i2, data )`: column `i3` of `data` becomes column `i2`
of `array[ i3 ]`, for every `i3`. -/
def tensor3.get_lateral_slice_bwd (t : tensor3 I1 I2 I3 T) (i2 : Nat)
    (data : matrix I1 I3 T) : Option (matrix I1 I3 T) :=
  if i2 ≥ I2 then none
  else forLoop I3 (fun i3 data =>
    (t.slice i3).bind fun a =>
    (matrix.get_column a i2).bind fun column =>
    matrix.set_column data i3 column) data

/-- The getter `get_horizontal_slice_fwd( i1, data )`: column `i3` of `data` becomes row `i1`
of `array[ i3 ]`, for every `i3`. -/
def tensor3.get_horizontal_slice_fwd (t : tensor3 I1 I2 I3 T) (i1 : Nat)
    (data : matrix I2 I3 T) : Option (matrix I2 I3 T) :=
  if i1 ≥ I1 then none
  else forLoop I3 (fun i3 data =>
    (t.slice i3).bind fun a =>
    (matrix.get_row a i1).bind fun row =>
    matrix.set_column data i3 row) data

/-- The getter `get_frontal_slice_bwd( i3, data )`: a temporary receives `array[ i3 ]` and
`data` its transpose. -/
def tensor3.get_frontal_slice_bwd (t : tensor3 I1 I2 I3 T) (i3 : Nat)
    (_data : matrix I2 I1 T) : Option (matrix I2 I1 T) :=
  if i3 ≥ I3 then none
  else (t.slice i3).bind fun data_t =>
    some (matrix.transpose data_t)

/-- The getter `get_lateral_slice_fwd( i2, data )`: a fresh temporary is filled as in
`get_lateral_slice_bwd` and `data` becomes its transpose. -/
def tensor3.get_lateral_slice_fwd (uninit : (M N : Nat) → matrix M N T)
    (t : tensor3 I1 I2 I3 T) (i2 : Nat) (_data : matrix I3 I1 T) : Option (matrix I3 I1 T) :=
  if i2 ≥ I2 then none
  else (forLoop I3 (fun i3 data_t =>
    (t.slice i3).bind fun a =>
    (matrix.get_column a i2).bind fun column =>
    matrix.set_column data_t i3 column) (uninit I1 I3)).bind fun data_t =>
    some (matrix.transpose data_t)

/-- The getter `get_horizontal_slice_bwd( i1, data )`: a fresh temporary is filled as in
`get_horizontal_slice_fwd` and `data` becomes its transpose. -/
def tensor3.get_horizontal_slice_bwd (uninit : (M N : Nat) → matrix M N T)
    (t : tensor3 I1 I2 I3 T) (i1 : Nat) (_data : matrix I3 I2 T) : Option (matrix I3 I2 T) :=
  if i1 ≥ I1 then none
  else (forLoop I3 (fun i3 data_t =>
    (t.slice i3).bind fun a =>
    (matrix.get_row a i1).bind fun row =>
    matrix.set_column data_t i3 row) (uninit I2 I3)).bind fun data_t =>
    some (matrix.transpose data_t)

end getters

/-! ## Slice setters -/

section setters

variable {T : Type} {I1 I2 I3 : Nat}

/-- The setter `set_frontal_slice_fwd( i3, data )`: `array[ i3 ] = data`. -/
def tensor3.set_frontal_slice_fwd (t : tensor3 I1 I2 I3 T) (i3 : Nat)
    (data : matrix I1 I2 T) : Option (tensor3 I1 I2 I3 T) :=
  if i3 ≥ I3 then none
  else t.set_slice i3 data

/-- The setter `set_lateral_slice_bwd( i2, data )`: column `i2` of `array[ i3 ]` becomes
column `i3` of `data`, for every `i3`. -/
def tensor3.set_lateral_slice_bwd (t : tensor3 I1 I2 I3 T) (i2 : Nat)
    (data : matrix I1 I3 T) : Option (tensor3 I1 I2 I3 T) :=
  if i2 ≥ I2 then none
  else forLoop I3 (fun i3 t =>
    (matrix.get_column data i3).bind fun column =>
    (t.slice i3).bind fun a =>
    (matrix.set_column a i2 column).bind fun a =>
    t.set_slice i3 a) t

/-- The setter `set_horizontal_slice_fwd( i1, data )`: row `i1` of `array[ i3 ]` becomes
column `i3` of `data`, for every `i3`. -/
def tensor3.set_horizontal_slice_fwd (t : tensor3 I1 I2 I3 T) (i1 : Nat)
    (data : matrix I2 I3 T) : Option (tensor3 I1 I2 I3 T) :=
  if i1 ≥ I1 then none
  else forLoop I3 (fun i3 t =>
    (matrix.get_column data i3).bind fun column =>
    (t.slice i3).bind fun a =>
    (matrix.set_row a i1 column).bind fun a =>
    t.set_slice i3 a) t

/-- The setter `set_frontal_slice_bwd( i3, data )`: a temporary receives `transpose( data )`
and is assigned to `array[ i3 ]`. -/
def tensor3.set_frontal_slice_bwd (t : tensor3 I1 I2 I3 T) (i3 : Nat)
    (data : matrix I2 I1 T) : Option (tensor3 I1 I2 I3 T) :=
  if i3 ≥ I3 then none
  else
    let data_t : matrix I1 I2 T := matrix.transpose data
    t.set_slice i3 data_t

/-- The setter `set_lateral_slice_fwd( i2, data )`: a temporary receives `transpose( data )`
and is stored as in `set_lateral_slice_bwd`. -/
def tensor3.set_lateral_slice_fwd (t : tensor3 I1 I2 I3 T) (i2 : Nat)
    (data : matrix I3 I1 T) : Option (tensor3 I1 I2 I3 T) :=
  if i2 ≥ I2 then none
  else
    let data_t : matrix I1 I3 T := matrix.transpose data
    forLoop I3 (fun i3 t =>
      (matrix.get_column data_t i3).bind fun column =>
      (t.slice i3).bind fun a =>
      (matrix.set_column a i2 column).bind fun a =>
      t.set_slice i3 a) t

/-- The setter `set_horizontal_slice_bwd( i1, data )`: a temporary receives
`transpose( data )` and is stored as in `set_horizontal_slice_fwd`. -/
def tensor3.set_horizontal_slice_bwd (t : tensor3 I1 I2 I3 T) (i1 : Nat)
    (data : matrix I3 I2 T) : Option (tensor3 I1 I2 I3 T) :=
  if i1 ≥ I1 then none
  else
    let data_t : matrix I2 I3 T := matrix.transpose data
    forLoop I3 (fun i3 t =>
      (matrix.get_column data_t i3).bind fun column =>
      (t.slice i3).bind fun a =>
      (matrix.set_row a i1 column).bind fun a =>
      t.set_slice i3 a) t

end setters

/-! ## Tensor times matrix

The three products are member templates of the destination `tensor3< I1, I2, I3, T >` taking a
source `tensor3< J1, J2, J3, T >`.  Each passes a product matrix to a slice setter of the
destination, which fixes two of the destination extents: `I3 = J3` for the lateral product
(`matrix< I1, J3, T >` is passed as `slice_type_lateral_bwd = matrix< I1, I3, T >`), `I1 = J1` for
the frontal one and `I2 = J2` for the horizontal one.  The extent of the batch mode stays free,
as in the source. -/

section products

variable {T : Type} [CommRing T] {I1 I2 I3 J1 J2 J3 : Nat}

/-- The product `multiply_horizontal_bwd( other, other_slice_ )`.  The loop state is `this`
together with the two temporaries `slice` and `slice_new`. -/
def tensor3.multiply_horizontal_bwd (uninit : (M N : Nat) → matrix M N T)
    (self : tensor3 I1 I2 I3 T) (other : tensor3 J1 I2 J3 T) (other_slice_ : matrix I3 J3 T) :
    Option (tensor3 I1 I2 I3 T) :=
  (forLoop J1 (fun i1 (st : tensor3 I1 I2 I3 T × matrix J3 I2 T × matrix I3 I2 T) =>
    (other.get_horizontal_slice_bwd uninit i1 st.2.1).bind fun slice =>
    let slice_new : matrix I3 I2 T := matrix.multiply other_slice_ slice
    (st.1.set_horizontal_slice_bwd i1 slice_new).bind fun self =>
    some (self, slice, slice_new)) (self, uninit J3 I2, uninit I3 I2)).map fun st => st.1

/-- The product `multiply_lateral_bwd( other, other_slice_ )`.  The loop state is `this`
together with the two temporaries `slice` and `slice_new`. -/
def tensor3.multiply_lateral_bwd (uninit : (M N : Nat) → matrix M N T)
    (self : tensor3 I1 I2 I3 T) (other : tensor3 J1 J2 I3 T) (other_slice_ : matrix I1 J1 T) :
    Option (tensor3 I1 I2 I3 T) :=
  (forLoop J2 (fun i2 (st : tensor3 I1 I2 I3 T × matrix J1 I3 T × matrix I1 I3 T) =>
    (other.get_lateral_slice_bwd i2 st.2.1).bind fun slice =>
    let slice_new : matrix I1 I3 T := matrix.multiply other_slice_ slice
    (st.1.set_lateral_slice_bwd i2 slice_new).bind fun self =>
    some (self, slice, slice_new)) (self, uninit J1 I3, uninit I1 I3)).map fun st => st.1

/-- The product `multiply_frontal_bwd( other, other_slice_ )`.  The loop state is `this`
together with the two temporaries `slice` and `slice_new`. -/
def tensor3.multiply_frontal_bwd (uninit : (M N : Nat) → matrix M N T)
    (self : tensor3 I1 I2 I3 T) (other : tensor3 I1 J2 J3 T) (other_slice_ : matrix I2 J2 T) :
    Option (tensor3 I1 I2 I3 T) :=
  (forLoop J3 (fun i3 (st : tensor3 I1 I2 I3 T × matrix J2 I1 T × matrix I2 I1 T) =>
    (other.get_frontal_slice_bwd i3 st.2.1).bind fun slice =>
    let slice_new : matrix I2 I1 T := matrix.multiply other_slice_ slice
    (st.1.set_frontal_slice_bwd i3 slice_new).bind fun self =>
    some (self, slice, slice_new)) (self, uninit J2 I1, uninit I2 I1)).map fun st => st.1

/-- The reconstruction `full_tensor3_matrix_multiplication( core, U1, U2, U3 )`: two fresh
intermediates, then the lateral, the frontal and the horizontal product. -/
def tensor3.full_tensor3_matrix_multiplication (uninit : (M N : Nat) → matrix M N T)
    (self : tensor3 I1 I2 I3 T) (core : tensor3 J1 J2 J3 T)
    (U1 : matrix I1 J1 T) (U2 : matrix I2 J2 T) (U3 : matrix I3 J3 T) :
    Option (tensor3 I1 I2 I3 T) :=
  let t3_result_1 : tensor3 I1 J2 J3 T := tensor3.fresh uninit
  let t3_result_2 : tensor3 I1 I2 J3 T := tensor3.fresh uninit
  (t3_result_1.multiply_lateral_bwd uninit core U1).bind fun t3_result_1 =>
  (t3_result_2.multiply_frontal_bwd uninit t3_result_1 U2).bind fun t3_result_2 =>
  self.multiply_horizontal_bwd uninit t3_result_2 U3

end products

/-! ## Unfoldings

Each unfolding is given with a ghost list recording, in order, the column indices passed to
`matricization.set_column`; the unfolding proper forgets the list. -/

section unfoldings

variable {T : Type} {I1 I2 I3 : Nat}

/-- The loop of `horizontal_matricization_bwd`, with the list of the columns it writes.  The
state is the out-parameter, the temporary `horizontal_slice` and the list. -/
def tensor3.horizontal_matricization_bwd_written (uninit : (M N : Nat) → matrix M N T)
    (t : tensor3 I1 I2 I3 T) (matricization : matrix I3 (I1 * I2) T) :
    Option (matrix I3 (I1 * I2) T × matrix I3 I2 T × List Nat) :=
  forLoop I1 (fun i st =>
    (t.get_horizontal_slice_bwd uninit i st.2.1).bind fun horizontal_slice =>
    forLoop I2 (fun col st =>
      (matrix.get_column st.2.1 col).bind fun column =>
      (matrix.set_column st.1 (i * I2 + col) column).bind fun matricization =>
      some (matricization, st.2.1, st.2.2 ++ [i * I2 + col]))
      (st.1, horizontal_slice, st.2.2))
    (matricization, uninit I3 I2, [])

/-- The unfolding `horizontal_matricization_bwd( matricization )`. -/
def tensor3.horizontal_matricization_bwd (uninit : (M N : Nat) → matrix M N T)
    (t : tensor3 I1 I2 I3 T) (matricization : matrix I3 (I1 * I2) T) :
    Option (matrix I3 (I1 * I2) T) :=
  (t.horizontal_matricization_bwd_written uninit matricization).map fun st => st.1

/-- The loop of `lateral_matricization_bwd`, with the list of the columns it writes.  The
state is the out-parameter, the temporary `lateral_slice` and the list. -/
def tensor3.lateral_matricization_bwd_written (uninit : (M N : Nat) → matrix M N T)
    (t : tensor3 I1 I2 I3 T) (matricization : matrix I1 (I2 * I3) T) :
    Option (matrix I1 (I2 * I3) T × matrix I1 I3 T × List Nat) :=
  forLoop I2 (fun i st =>
    (t.get_lateral_slice_bwd i st.2.1).bind fun lateral_slice =>
    forLoop I3 (fun col st =>
      (matrix.get_column st.2.1 col).bind fun column =>
      (matrix.set_column st.1 (i * I3 + col) column).bind fun matricization =>
      some (matricization, st.2.1, st.2.2 ++ [i * I3 + col]))
      (st.1, lateral_slice, st.2.2))
    (matricization, uninit I1 I3, [])

/-- The unfolding `lateral_matricization_bwd( matricization )`. -/
def tensor3.lateral_matricization_bwd (uninit : (M N : Nat) → matrix M N T)
    (t : tensor3 I1 I2 I3 T) (matricization : matrix I1 (I2 * I3) T) :
    Option (matrix I1 (I2 * I3) T) :=
  (t.lateral_matricization_bwd_written uninit matricization).map fun st => st.1

/-- The loop of `frontal_matricization_bwd`, with the list of the columns it writes.  The
state is the out-parameter, the temporary `frontal_slice` and the list. -/
def tensor3.frontal_matricization_bwd_written (uninit : (M N : Nat) → matrix M N T)
    (t : tensor3 I1 I2 I3 T) (matricization : matrix I2 (I1 * I3) T) :
    Option (matrix I2 (I1 * I3) T × matrix I2 I1 T × List Nat) :=
  forLoop I3 (fun i st =>
    (t.get_frontal_slice_bwd i st.2.1).bind fun frontal_slice =>
    forLoop I1 (fun col st =>
      (matrix.get_column st.2.1 col).bind fun column =>
      (matrix.set_column st.1 (i * I1 + col) column).bind fun matricization =>
      some (matricization, st.2.1, st.2.2 ++ [i * I1 + col]))
      (st.1, frontal_slice, st.2.2))
    (matricization, uninit I2 I1, [])

/-- The unfolding `frontal_matricization_bwd( matricization )`. -/
def tensor3.frontal_matricization_bwd (uninit : (M N : Nat) → matrix M N T)
    (t : tensor3 I1 I2 I3 T) (matricization : matrix I2 (I1 * I3) T) :
    Option (matrix I2 (I1 * I3) T) :=
  (t.frontal_matricization_bwd_written uninit matricization).map fun st => st.1

end unfoldings

/-! ## Exact comparison -/

section comparison

variable {T : Type} [DecidableEq T] {I1 I2 I3 : Nat}

/-- The loop `for( size_t i3 = 0; ok && i3 < I3; ++i3 ) ok = array[ i3 ] == other.array[ i3 ]`
of `operator==`, entered at `i3` with the current `ok`. -/
def tensor3.operator_eq_loop (self other : tensor3 I1 I2 I3 T) (i3 : Nat) (ok : Bool) : Bool :=
  if h : ok = true ∧ i3 < I3 then
    tensor3.operator_eq_loop self other (i3 + 1)
      (matrix.operator_eq (self.array ⟨i3, h.2⟩) (other.array ⟨i3, h.2⟩))
  else ok
termination_by I3 - i3
decreasing_by omega

/-- The comparison `operator==( other )`. -/
def tensor3.operator_eq (self other : tensor3 I1 I2 I3 T) : Bool :=
  tensor3.operator_eq_loop self other 0 true

end comparison

/-! ## Element access, fills and the tolerance comparison -/

section element_access

variable {T : Type} {M N I1 I2 I3 : Nat}

/-- Modelled from the spec: the element write `m.at( row, col ) = value` of the matrix
primitive, failing on an index outside the extents. -/
def matrix.set_at (m : matrix M N T) (row col : Nat) (value : T) : Option (matrix M N T) :=
  if row < M ∧ col < N then
    some (fun r c => if r.val = row ∧ c.val = col then value else m r c)
  else none

/-- Modelled from the spec: `m.fill( fill_value )` of the matrix primitive: every element
becomes `fill_value`. -/
def matrix.fill (_m : matrix M N T) (fill_value : T) : matrix M N T :=
  fun _ _ => fill_value

/-- Modelled from the spec: `a.equals( b, tolerance )` of the matrix primitive, the
tolerance-based equality: two elements that differ by exactly the tolerance compare equal. -/
def matrix.equals [LinearOrderedCommRing T] (a b : matrix M N T) (tolerance : T) : Bool :=
  decide (∀ (r : Fin M) (c : Fin N), |a r c - b r c| ≤ tolerance)

/-- The write `at( i1, i2, i3 ) = value` through the mutable accessor `at`. -/
def tensor3.set_at (t : tensor3 I1 I2 I3 T) (i1 i2 i3 : Nat) (value : T) :
    Option (tensor3 I1 I2 I3 T) :=
  if i3 ≥ I3 then none
  else (t.slice i3).bind fun a =>
    (matrix.set_at a i1 i2 value).bind fun a =>
    t.set_slice i3 a

/-- The read `operator()( i1, i2, i3 )`: `return at( i1, i2, i3 )`. -/
def tensor3.operator_call (t : tensor3 I1 I2 I3 T) (i1 i2 i3 : Nat) : Option T :=
  t.at_ i1 i2 i3

/-- The write through the mutable `operator()( i1, i2, i3 )`, which returns the reference
`at( i1, i2, i3 )`. -/
def tensor3.set_operator_call (t : tensor3 I1 I2 I3 T) (i1 i2 i3 : Nat) (value : T) :
    Option (tensor3 I1 I2 I3 T) :=
  t.set_at i1 i2 i3 value

/-- The method `fill( fillValue )`: every frontal slice is filled. -/
def tensor3.fill (t : tensor3 I1 I2 I3 T) (fillValue : T) : Option (tensor3 I1 I2 I3 T) :=
  forLoop I3 (fun i3 t =>
    (t.slice i3).bind fun a =>
    t.set_slice i3 (matrix.fill a fillValue)) t

/-- The method `zero()`: `fill( static_cast< T >( 0.0 ) )`. -/
def tensor3.zero [Zero T] (t : tensor3 I1 I2 I3 T) : Option (tensor3 I1 I2 I3 T) :=
  t.fill 0

/-- The method `fill_increasing_values()`.  The loop state is `this` with the counter
`fillValue`, which holds `0, 1, 2, ...` and is converted to `T` on each write. -/
def tensor3.fill_increasing_values [NatCast T] (t : tensor3 I1 I2 I3 T) :
    Option (tensor3 I1 I2 I3 T) :=
  (forLoop I3 (fun i3 st =>
    forLoop I1 (fun i1 st =>
      forLoop I2 (fun i2 (st : tensor3 I1 I2 I3 T × Nat) =>
        (st.1.set_at i1 i2 i3 (st.2 : T)).bind fun t =>
        some (t, st.2 + 1)) st) st) (t, 0)).map fun st => st.1

/-- The loop `for( size_t i3 = 0; ok && i3 < I3; ++i3 )
ok = array[ i3 ].equals( other.array[ i3 ], tolerance )` of `equals`, entered at `i3` with the
current `ok`. -/
def tensor3.equals_loop [LinearOrderedCommRing T] (self other : tensor3 I1 I2 I3 T)
    (tolerance : T) (i3 : Nat) (ok : Bool) : Bool :=
  if h : ok = true ∧ i3 < I3 then
    tensor3.equals_loop self other tolerance (i3 + 1)
      (matrix.equals (self.array ⟨i3, h.2⟩) (other.array ⟨i3, h.2⟩) tolerance)
  else ok
termination_by I3 - i3
decreasing_by omega

/-- The comparison `equals( other, tolerance )`. -/
def tensor3.equals [LinearOrderedCommRing T] (self other : tensor3 I1 I2 I3 T)
    (tolerance : T) : Bool :=
  tensor3.equals_loop self other tolerance 0 true

end element_access

/-! ## The element iterator and the operations built on it

`begin()` and `end()` construct a `tensor3_iterator`, whose class is not part of the sources.
An iterator is represented by its offset from `begin()`: `begin()` is offset `0`, `++it` adds
one, and `end()` is offset `I1 * I2 * I3`, so `for( ; it != it_end; ++it )` is a loop over the
offsets below `I1 * I2 * I3`. -/

section iteration

variable {T : Type} {I1 I2 I3 : Nat}

/-- Modelled from the spec: the index `( i1, i2, i3 )` of the element the iterator of
`vmmlib/tensor3_iterator.hpp` (absent from the sources) points at, `k` steps after `begin()`.
The frontal slices are visited in ascending order and each of them in the column-major order
that the note at the declaration of `begin()` and section 4.6 of the spec give: down the first
column, then down the second, and so on. -/
def tensor3.iterator_index (I1 I2 : Nat) (k : Nat) : Nat × Nat × Nat :=
  (k % I1, k / I1 % I2, k / (I1 * I2))

/-- Modelled from the spec: the read `*it` of the iterator `k` steps after `begin()`, the
element at `iterator_index`. -/
def tensor3.iterator_read (t : tensor3 I1 I2 I3 T) (k : Nat) : Option T :=
  t.at_ (tensor3.iterator_index I1 I2 k).1 (tensor3.iterator_index I1 I2 k).2.1
    (tensor3.iterator_index I1 I2 k).2.2

/-- Modelled from the spec: the write `*it = value` of the iterator `k` steps after
`begin()`. -/
def tensor3.iterator_write (t : tensor3 I1 I2 I3 T) (k : Nat) (value : T) :
    Option (tensor3 I1 I2 I3 T) :=
  t.set_at (tensor3.iterator_index I1 I2 k).1 (tensor3.iterator_index I1 I2 k).2.1
    (tensor3.iterator_index I1 I2 k).2.2 value

/-- The method `export_to( data_ )`: the vector is cleared and receives `*it` for every
iterator position. -/
def tensor3.export_to (t : tensor3 I1 I2 I3 T) (_data : List T) : Option (List T) :=
  forLoop (I1 * I2 * I3) (fun it data_ =>
    (t.iterator_read it).bind fun value =>
    some (data_ ++ [value])) []

/-- The method `import_from( data_ )`.  The loop state is `this` with the index `i` into
`data_`; `data_.at( i )` is the checked read of `std::vector`. -/
def tensor3.import_from [Zero T] (t : tensor3 I1 I2 I3 T) (data_ : List T) :
    Option (tensor3 I1 I2 I3 T) :=
  (forLoop (I1 * I2 * I3) (fun it (st : tensor3 I1 I2 I3 T × Nat) =>
    (if st.2 ≥ data_.length then st.1.iterator_write it 0
     else (data_[st.2]?).bind fun value => st.1.iterator_write it value).bind fun t =>
    some (t, st.2 + 1)) (t, 0)).map fun st => st.1

/-- The method `set( begin_, end_, row_major_layout )` on the input sequence `data`: `it` is
an index into `data` and `end_` is `data.length`.  In the row-major branch the loop state is
`this`, `it` and a flag recording that `return` was reached, after which nothing is done; the
other branch is `std::copy( it, it + ( I1 * I2 * I3 ), begin() )`, which reads
`I1 * I2 * I3` input elements whatever `end_` is. -/
def tensor3.set (t : tensor3 I1 I2 I3 T) (data : List T) (row_major_layout : Bool) :
    Option (tensor3 I1 I2 I3 T) :=
  if row_major_layout then
    (forLoop I3 (fun i3 st =>
      forLoop I1 (fun i1 st =>
        forLoop I2 (fun i2 (st : tensor3 I1 I2 I3 T × Nat × Bool) =>
          if st.2.2 then some st
          else if st.2.1 = data.length then some (st.1, st.2.1, true)
          else (data[st.2.1]?).bind fun value =>
            (st.1.set_at i1 i2 i3 value).bind fun t =>
            some (t, st.2.1 + 1, false)) st) st) (t, 0, false)).map fun st => st.1
  else
    forLoop (I1 * I2 * I3) (fun k t =>
      (data[k]?).bind fun value =>
      t.iterator_write k value) t

/-- The accumulation loop of `frobenius_norm()`.  The accumulator `f_norm` is a `double`,
here the type `D` with its own addition; each product `*it * *it` is formed in the element type
by its multiplication `mul` and then converted to `double` by `widen`.  Nothing is assumed of
`mul`, `widen` or the addition of `D`. -/
def tensor3.frobenius_norm_sum {D : Type} [Add D] [Zero D] (mul : T → T → T) (widen : T → D)
    (t : tensor3 I1 I2 I3 T) : Option D :=
  forLoop (I1 * I2 * I3) (fun it f_norm =>
    (t.iterator_read it).bind fun value =>
    some (f_norm + widen (mul value value))) 0

/-- The method `frobenius_norm()`: `sqrt` of the accumulated sum.  The square root is the
library function, a parameter here. -/
def tensor3.frobenius_norm {D R : Type} [Add D] [Zero D] (mul : T → T → T) (widen : T → D)
    (sqrt : D → R) (t : tensor3 I1 I2 I3 T) : Option R :=
  (t.frobenius_norm_sum mul widen).map sqrt

/-- The compound assignment `operator+=( other )`: the two iterators advance together and
`*it += *other_it`. -/
def tensor3.operator_add_assign [Add T] (self other : tensor3 I1 I2 I3 T) :
    Option (tensor3 I1 I2 I3 T) :=
  forLoop (I1 * I2 * I3) (fun it self =>
    (self.iterator_read it).bind fun a =>
    (other.iterator_read it).bind fun b =>
    self.iterator_write it (a + b)) self

/-- The sum `operator+( other ) const`: `result` is a copy of `*this`, then
`result += other`.  The method is `const`: only `result` is produced. -/
def tensor3.operator_add [Add T] (self other : tensor3 I1 I2 I3 T) :
    Option (tensor3 I1 I2 I3 T) :=
  let result : tensor3 I1 I2 I3 T := self
  result.operator_add_assign other

end iteration

/-! ## Tubes, negation, resizing, thresholds and subtraction -/

section further_operations

variable {T : Type} {M N I1 I2 I3 J1 J2 J3 : Nat}

/-- Modelled from the spec: the indexed read `v[ i ]` of the vector primitive, failing on an
index outside the extent. -/
def vector.at_ (v : vector M T) (i : Nat) : Option T :=
  if h : i < M then some (v ⟨i, h⟩) else none

/-- Modelled from the spec: the indexed write `v[ i ] = value` of the vector primitive. -/
def vector.set_at (v : vector M T) (i : Nat) (value : T) : Option (vector M T) :=
  if i < M then some (fun j => if j.val = i then value else v j) else none

/-- Modelled from the spec: `m *= scalar` of the matrix primitive, the scaling of every
element. -/
def matrix.operator_mul_assign [Mul T] (m : matrix M N T) (scalar : T) : matrix M N T :=
  fun r c => m r c * scalar

/-- The getter `get_I3_vector( i1, i2, data )`: `data[ i3 ] = array[ i3 ].at( i1, i2 )` for
every `i3`. -/
def tensor3.get_I3_vector (t : tensor3 I1 I2 I3 T) (i1 i2 : Nat) (data : vector I3 T) :
    Option (vector I3 T) :=
  forLoop I3 (fun i3 data =>
    (t.slice i3).bind fun a =>
    (matrix.at_ a i1 i2).bind fun value =>
    vector.set_at data i3 value) data

/-- The getter `get_tube( i1, i2, data )`: `get_I3_vector( i1, i2, data )`. -/
def tensor3.get_tube (t : tensor3 I1 I2 I3 T) (i1 i2 : Nat) (data : vector I3 T) :
    Option (vector I3 T) :=
  t.get_I3_vector i1 i2 data

/-- The setter `set_I3_vector( i1, i2, data )`: `array[ i3 ].at( i1, i2 ) = data[ i3 ]` for
every `i3`. -/
def tensor3.set_I3_vector (t : tensor3 I1 I2 I3 T) (i1 i2 : Nat) (data : vector I3 T) :
    Option (tensor3 I1 I2 I3 T) :=
  forLoop I3 (fun i3 t =>
    (vector.at_ data i3).bind fun value =>
    (t.slice i3).bind fun a =>
    (matrix.set_at a i1 i2 value).bind fun a =>
    t.set_slice i3 a) t

/-- The setter `set_tube( i1, i2, data )`: `set_I3_vector( i1, i2, data )`. -/
def tensor3.set_tube (t : tensor3 I1 I2 I3 T) (i1 i2 : Nat) (data : vector I3 T) :
    Option (tensor3 I1 I2 I3 T) :=
  t.set_I3_vector i1 i2 data

/-- The compound assignment `operator*=( scalar )`: `array[ i3 ] *= scalar` for every
`i3`. -/
def tensor3.operator_mul_assign [Mul T] (t : tensor3 I1 I2 I3 T) (scalar : T) :
    Option (tensor3 I1 I2 I3 T) :=
  forLoop I3 (fun i3 t =>
    (t.slice i3).bind fun a =>
    t.set_slice i3 (matrix.operator_mul_assign a scalar)) t

/-- The method `negate() const`: `tensor3 result; result *= -1.0; return result;`.  The local
`result` is default-constructed, so it starts as fresh storage; `*this` does not occur in the
body. -/
def tensor3.negate [CommRing T] (uninit : (M N : Nat) → matrix M N T)
    (_self : tensor3 I1 I2 I3 T) : Option (tensor3 I1 I2 I3 T) :=
  let result : tensor3 I1 I2 I3 T := tensor3.fresh uninit
  result.operator_mul_assign (-1)

/-- The unary `operator-() const`: `return negate();`. -/
def tensor3.operator_neg [CommRing T] (uninit : (M N : Nat) → matrix M N T)
    (self : tensor3 I1 I2 I3 T) : Option (tensor3 I1 I2 I3 T) :=
  self.negate uninit

/-- The size-converting constructor `tensor3( const tensor3< J1, J2, J3, T >& source_ )`: the
new object starts as fresh storage, is zeroed, and receives `source_( i, j, k )` for the indices
below the three minima. -/
def tensor3.construct_from [Zero T] (uninit : (M N : Nat) → matrix M N T)
    (source_ : tensor3 J1 J2 J3 T) : Option (tensor3 I1 I2 I3 T) :=
  let minL := if J1 < I1 then J1 else I1
  let minC := if J2 < I2 then J2 else I2
  let minS := if J3 < I3 then J3 else I3
  ((tensor3.fresh uninit : tensor3 I1 I2 I3 T).zero).bind fun self =>
  forLoop minL (fun i self =>
    forLoop minC (fun j self =>
      forLoop minS (fun k self =>
        (source_.operator_call i j k).bind fun value =>
        self.set_at i j k value) self) self) self

/-- The method `range_threshold( other_, start_value, end_value ) const`: the elements of
`*this` that lie between the two bounds are written to `other_`; the new `other_` is
returned. -/
def tensor3.range_threshold [LinearOrder T] (self other_ : tensor3 I1 I2 I3 T)
    (start_value end_value : T) : Option (tensor3 I1 I2 I3 T) :=
  forLoop I3 (fun i3 other_ =>
    forLoop I1 (fun i1 other_ =>
      forLoop I2 (fun i2 (other_ : tensor3 I1 I2 I3 T) =>
        (self.at_ i1 i2 i3).bind fun value =>
        if start_value ≤ value ∧ value ≤ end_value then other_.set_at i1 i2 i3 value
        else some other_) other_) other_) other_

/-- The compound assignment `operator-=( other )`: the two iterators advance together and
`*it -= *other_it`. -/
def tensor3.operator_sub_assign [Sub T] (self other : tensor3 I1 I2 I3 T) :
    Option (tensor3 I1 I2 I3 T) :=
  forLoop (I1 * I2 * I3) (fun it self =>
    (self.iterator_read it).bind fun a =>
    (other.iterator_read it).bind fun b =>
    self.iterator_write it (a - b)) self

/-- The difference `operator-( other ) const`: `result` is a copy of `*this`, then
`result -= other`.  The method is `const`: only `result` is produced. -/
def tensor3.operator_sub [Sub T] (self other : tensor3 I1 I2 I3 T) :
    Option (tensor3 I1 I2 I3 T) :=
  let result : tensor3 I1 I2 I3 T := self
  result.operator_sub_assign other

end further_operations

/-! ## Auxiliary definitions for the statements -/

section auxiliary

variable {T : Type}

/-- The state reached by an unfolding loop once the columns below `k` are written: those
columns hold the slice columns, the others are untouched, and the list of written columns is
`0, ..., k - 1`. -/
def unfolded_upto {R C B W : Nat} (f : Fin B → matrix R W T) (m0 : matrix R C T) (k : Nat)
    (st : matrix R C T × matrix R W T × List Nat) : Prop :=
  (∀ (r : Fin R) (c : Fin C), c.val < k → ∀ (b : Fin B) (w : Fin W),
      c.val = b.val * W + w.val → st.1 r c = f b r w) ∧
  (∀ (r : Fin R) (c : Fin C), k ≤ c.val → st.1 r c = m0 r c) ∧
  st.2.2 = List.range k

/-- The `2 x 2 x 2` tensor holding `0, 1, ..., 7`, with `t( i1, i2, i3 ) = 4 * i3 + 2 * i1 + i2`. -/
def increasing_2x2x2 : tensor3 2 2 2 Int :=
  ⟨fun i3 i1 i2 => 4 * (i3.val : Int) + 2 * (i1.val : Int) + (i2.val : Int)⟩

/-- Fresh storage holding zeros, for evaluating on concrete inputs. -/
def fresh_zeros : (M N : Nat) → matrix M N Int :=
  fun _ _ _ _ => 0

/-- The `1 x 1 x 2` tensor with `t( 0, 0, 0 ) = 10` and `t( 0, 0, 1 ) = 11`. -/
def tube_1x1x2 : tensor3 1 1 2 Int :=
  ⟨fun i3 _ _ => 10 + (i3.val : Int)⟩

/-- The tensor `increasing_2x2x2` with `3` added to the element `( 1, 0, 1 )`. -/
def bumped_2x2x2 : tensor3 2 2 2 Int :=
  ⟨fun i3 i1 i2 =>
    if i3.val = 1 ∧ i1.val = 1 ∧ i2.val = 0 then increasing_2x2x2.array i3 i1 i2 + 3
    else increasing_2x2x2.array i3 i1 i2⟩

/-- The `3 x 2` factor matrix of ones. -/
def ones_3x2 : matrix 3 2 Int :=
  fun _ _ => 1

/-- A tensor holding `-1` everywhere, as prior contents of a destination. -/
def minus_ones (I1 I2 I3 : Nat) : tensor3 I1 I2 I3 Int :=
  ⟨fun _ _ _ => -1⟩

/-- The product of two `int` values as 32-bit two's-complement hardware forms it: the exact
product reduced to the range from `-2147483648` to `2147483647`. -/
def mul_int32 (a b : Int) : Int :=
  (a * b + 2147483648) % 4294967296 - 2147483648

/-- The `1 x 1 x 1` tensor holding `50000`. -/
def single_50000 : tensor3 1 1 1 Int :=
  ⟨fun _ _ _ => 50000⟩

end auxiliary

/-! ## Closed forms of the loops -/

section loop_lemmas

theorem forLoop_inv {σ : Type} (P : Nat → σ → Prop) (n : Nat) (body : Nat → σ → Option σ)
    (s : σ) (h0 : P 0 s)
    (hstep : ∀ k s, k < n → P k s → ∃ s', body k s = some s' ∧ P (k + 1) s') :
    ∃ s', forLoop n body s = some s' ∧ P n s' := by
  induction n with
  | zero => exact ⟨s, rfl, h0⟩
  | succ k ih =>
    obtain ⟨s1, h1, hP1⟩ := ih (fun j s hj hp => hstep j s (Nat.lt_succ_of_lt hj) hp)
    obtain ⟨s2, h2, hP2⟩ := hstep k s1 (Nat.lt_succ_self k) hP1
    exact ⟨s2, by simp [forLoop, h1, h2], hP2⟩

theorem forLoop_eq_of_inv {σ : Type} (P : Nat → σ → Prop) (n : Nat)
    (body : Nat → σ → Option σ) (s r : σ) (h0 : P 0 s)
    (hstep : ∀ k s, k < n → P k s → ∃ s', body k s = some s' ∧ P (k + 1) s')
    (hfin : ∀ s', P n s' → s' = r) :
    forLoop n body s = some r := by
  obtain ⟨s1, h1, hP1⟩ := forLoop_inv P n body s h0 hstep
  rw [h1, hfin s1 hP1]

theorem forLoop_map_eq_of_inv {σ τ : Type} (P : Nat → σ → Prop) (n : Nat)
    (body : Nat → σ → Option σ) (s : σ) (f : σ → τ) (r : τ) (h0 : P 0 s)
    (hstep : ∀ k s, k < n → P k s → ∃ s', body k s = some s' ∧ P (k + 1) s')
    (hfin : ∀ s', P n s' → f s' = r) :
    (forLoop n body s).map f = some r := by
  obtain ⟨s1, h1, hP1⟩ := forLoop_inv P n body s h0 hstep
  rw [h1, Option.map_some', hfin s1 hP1]

end loop_lemmas

section primitive_lemmas

variable {T : Type} {M N : Nat}

theorem matrix.at_of_lt (m : matrix M N T) (row col : Nat) (hr : row < M) (hc : col < N) :
    matrix.at_ m row col = some (m ⟨row, hr⟩ ⟨col, hc⟩) := by
  simp [matrix.at_, hr, hc]

theorem matrix.get_column_of_lt (m : matrix M N T) (col : Nat) (h : col < N) :
    matrix.get_column m col = some (fun r => m r ⟨col, h⟩) := by
  simp [matrix.get_column, h]

theorem matrix.set_column_of_lt (m : matrix M N T) (col : Nat) (h : col < N)
    (column : vector M T) :
    matrix.set_column m col column
      = some (fun r c => if c.val = col then column r else m r c) := by
  simp [matrix.set_column, h]

theorem matrix.get_row_of_lt (m : matrix M N T) (row : Nat) (h : row < M) :
    matrix.get_row m row = some (fun c => m ⟨row, h⟩ c) := by
  simp [matrix.get_row, h]

theorem matrix.set_row_of_lt (m : matrix M N T) (row : Nat) (h : row < M)
    (row_values : vector N T) :
    matrix.set_row m row row_values
      = some (fun r c => if r.val = row then row_values c else m r c) := by
  simp [matrix.set_row, h]

end primitive_lemmas

section slice_lemmas

variable {T : Type} {I1 I2 I3 : Nat}

theorem tensor3.slice_of_lt (t : tensor3 I1 I2 I3 T) (i3 : Nat) (h : i3 < I3) :
    t.slice i3 = some (t.array ⟨i3, h⟩) := by
  simp [tensor3.slice, h]

theorem tensor3.set_slice_of_lt (t : tensor3 I1 I2 I3 T) (i3 : Nat) (h : i3 < I3)
    (m : matrix I1 I2 T) :
    t.set_slice i3 m = some ⟨fun k => if k.val = i3 then m else t.array k⟩ := by
  simp [tensor3.set_slice, h]

theorem tensor3.at_of_fin (t : tensor3 I1 I2 I3 T) (i1 : Fin I1) (i2 : Fin I2) (i3 : Fin I3) :
    t.at_ i1 i2 i3 = some (t.array i3 i1 i2) := by
  simp [tensor3.at_, tensor3.slice, matrix.at_]

/-- The column-gathering loop shared by the two lateral getters. -/
theorem tensor3.lateral_get_loop (t : tensor3 I1 I2 I3 T) (i2 : Nat) (h : i2 < I2)
    (data : matrix I1 I3 T) :
    forLoop I3 (fun i3 data =>
      (t.slice i3).bind fun a =>
      (matrix.get_column a i2).bind fun column =>
      matrix.set_column data i3 column) data
      = some (fun r c => t.array c r ⟨i2, h⟩) := by
  refine forLoop_eq_of_inv
    (fun k (d : matrix I1 I3 T) =>
      ∀ r c, d r c = if c.val < k then t.array c r ⟨i2, h⟩ else data r c)
    _ _ _ _ ?_ ?_ ?_
  · intro r c; simp
  · intro k d hk hd
    refine ⟨_, by
      rw [tensor3.slice_of_lt t k hk, Option.some_bind, matrix.get_column_of_lt _ i2 h,
        Option.some_bind, matrix.set_column_of_lt _ k hk], ?_⟩
    intro r c
    by_cases hc : c.val = k
    · have : c = ⟨k, hk⟩ := Fin.ext hc
      subst this
      simp
    · have h1 : (c.val < k + 1) = (c.val < k) := by
        apply propext; omega
      simp only [hc, if_false, hd r c, h1]
  · intro d hP
    funext r c
    rw [hP r c]
    simp [c.isLt]

/-- The row-gathering loop shared by the two horizontal getters. -/
theorem tensor3.horizontal_get_loop (t : tensor3 I1 I2 I3 T) (i1 : Nat) (h : i1 < I1)
    (data : matrix I2 I3 T) :
    forLoop I3 (fun i3 data =>
      (t.slice i3).bind fun a =>
      (matrix.get_row a i1).bind fun row =>
      matrix.set_column data i3 row) data
      = some (fun r c => t.array c ⟨i1, h⟩ r) := by
  refine forLoop_eq_of_inv
    (fun k (d : matrix I2 I3 T) =>
      ∀ r c, d r c = if c.val < k then t.array c ⟨i1, h⟩ r else data r c)
    _ _ _ _ ?_ ?_ ?_
  · intro r c; simp
  · intro k d hk hd
    refine ⟨_, by
      rw [tensor3.slice_of_lt t k hk, Option.some_bind, matrix.get_row_of_lt _ i1 h,
        Option.some_bind, matrix.set_column_of_lt _ k hk], ?_⟩
    intro r c
    by_cases hc : c.val = k
    · have : c = ⟨k, hk⟩ := Fin.ext hc
      subst this
      simp
    · have h1 : (c.val < k + 1) = (c.val < k) := by
        apply propext; omega
      simp only [hc, if_false, hd r c, h1]
  · intro d hP
    funext r c
    rw [hP r c]
    simp [c.isLt]

/-- The column-scattering loop shared by the two lateral setters. -/
theorem tensor3.lateral_set_loop (t : tensor3 I1 I2 I3 T) (i2 : Nat) (h : i2 < I2)
    (data : matrix I1 I3 T) :
    forLoop I3 (fun i3 t =>
      (matrix.get_column data i3).bind fun column =>
      (t.slice i3).bind fun a =>
      (matrix.set_column a i2 column).bind fun a =>
      t.set_slice i3 a) t
      = some ⟨fun k r c => if c.val = i2 then data r k else t.array k r c⟩ := by
  refine forLoop_eq_of_inv
    (fun k (s : tensor3 I1 I2 I3 T) =>
      ∀ i3 r c, s.array i3 r c
        = if i3.val < k ∧ c.val = i2 then data r i3 else t.array i3 r c)
    _ _ _ _ ?_ ?_ ?_
  · intro i3 r c; simp
  · intro k s hk hs
    refine ⟨_, by
      rw [matrix.get_column_of_lt _ k hk, Option.some_bind, tensor3.slice_of_lt s k hk,
        Option.some_bind, matrix.set_column_of_lt _ i2 h, Option.some_bind,
        tensor3.set_slice_of_lt s k hk], ?_⟩
    intro i3 r c
    by_cases hi : i3.val = k
    · have : i3 = ⟨k, hk⟩ := Fin.ext hi
      subst this
      by_cases hc : c.val = i2
      · simp [hc]
      · simp [hc, hs]
    · have h1 : (i3.val < k + 1) = (i3.val < k) := by
        apply propext; omega
      simp only [hi, if_false, hs i3 r c, h1]
  · intro s hP
    cases s with
    | mk arr =>
      congr 1
      funext i3 r c
      have := hP i3 r c
      simp only [i3.isLt, true_and] at this
      exact this

/-- The row-scattering loop shared by the two horizontal setters. -/
theorem tensor3.horizontal_set_loop (t : tensor3 I1 I2 I3 T) (i1 : Nat) (h : i1 < I1)
    (data : matrix I2 I3 T) :
    forLoop I3 (fun i3 t =>
      (matrix.get_column data i3).bind fun column =>
      (t.slice i3).bind fun a =>
      (matrix.set_row a i1 column).bind fun a =>
      t.set_slice i3 a) t
      = some ⟨fun k r c => if r.val = i1 then data c k else t.array k r c⟩ := by
  refine forLoop_eq_of_inv
    (fun k (s : tensor3 I1 I2 I3 T) =>
      ∀ i3 r c, s.array i3 r c
        = if i3.val < k ∧ r.val = i1 then data c i3 else t.array i3 r c)
    _ _ _ _ ?_ ?_ ?_
  · intro i3 r c; simp
  · intro k s hk hs
    refine ⟨_, by
      rw [matrix.get_column_of_lt _ k hk, Option.some_bind, tensor3.slice_of_lt s k hk,
        Option.some_bind, matrix.set_row_of_lt _ i1 h, Option.some_bind,
        tensor3.set_slice_of_lt s k hk], ?_⟩
    intro i3 r c
    by_cases hi : i3.val = k
    · have : i3 = ⟨k, hk⟩ := Fin.ext hi
      subst this
      by_cases hr : r.val = i1
      · simp [hr]
      · simp [hr, hs]
    · have h1 : (i3.val < k + 1) = (i3.val < k) := by
        apply propext; omega
      simp only [hi, if_false, hs i3 r c, h1]
  · intro s hP
    cases s with
    | mk arr =>
      congr 1
      funext i3 r c
      have := hP i3 r c
      simp only [i3.isLt, true_and] at this
      exact this

/-! ## Closed forms of the slice accessors -/

theorem tensor3.get_frontal_slice_fwd_eq (t : tensor3 I1 I2 I3 T) (i3 : Nat) (h : i3 < I3)
    (data : matrix I1 I2 T) :
    t.get_frontal_slice_fwd i3 data = some (t.array ⟨i3, h⟩) := by
  simp [tensor3.get_frontal_slice_fwd, tensor3.slice, h]

theorem tensor3.get_frontal_slice_bwd_eq (t : tensor3 I1 I2 I3 T) (i3 : Nat) (h : i3 < I3)
    (data : matrix I2 I1 T) :
    t.get_frontal_slice_bwd i3 data = some (fun r c => t.array ⟨i3, h⟩ c r) := by
  simp only [tensor3.get_frontal_slice_bwd, tensor3.slice, h, ge_iff_le, dite_true,
    Option.some_bind, if_neg (Nat.not_le.mpr h)]
  rfl

theorem tensor3.get_lateral_slice_bwd_eq (t : tensor3 I1 I2 I3 T) (i2 : Nat) (h : i2 < I2)
    (data : matrix I1 I3 T) :
    t.get_lateral_slice_bwd i2 data = some (fun r c => t.array c r ⟨i2, h⟩) := by
  unfold tensor3.get_lateral_slice_bwd
  rw [if_neg (by omega), tensor3.lateral_get_loop t i2 h]

theorem tensor3.get_lateral_slice_fwd_eq (uninit : (M N : Nat) → matrix M N T)
    (t : tensor3 I1 I2 I3 T) (i2 : Nat) (h : i2 < I2) (data : matrix I3 I1 T) :
    t.get_lateral_slice_fwd uninit i2 data = some (fun r c => t.array r c ⟨i2, h⟩) := by
  unfold tensor3.get_lateral_slice_fwd
  rw [if_neg (by omega), tensor3.lateral_get_loop t i2 h]
  rfl

theorem tensor3.get_horizontal_slice_fwd_eq (t : tensor3 I1 I2 I3 T) (i1 : Nat) (h : i1 < I1)
    (data : matrix I2 I3 T) :
    t.get_horizontal_slice_fwd i1 data = some (fun r c => t.array c ⟨i1, h⟩ r) := by
  unfold tensor3.get_horizontal_slice_fwd
  rw [if_neg (by omega), tensor3.horizontal_get_loop t i1 h]

theorem tensor3.get_horizontal_slice_bwd_eq (uninit : (M N : Nat) → matrix M N T)
    (t : tensor3 I1 I2 I3 T) (i1 : Nat) (h : i1 < I1) (data : matrix I3 I2 T) :
    t.get_horizontal_slice_bwd uninit i1 data = some (fun r c => t.array r ⟨i1, h⟩ c) := by
  unfold tensor3.get_horizontal_slice_bwd
  rw [if_neg (by omega), tensor3.horizontal_get_loop t i1 h]
  rfl

theorem tensor3.set_frontal_slice_fwd_eq (t : tensor3 I1 I2 I3 T) (i3 : Nat) (h : i3 < I3)
    (data : matrix I1 I2 T) :
    t.set_frontal_slice_fwd i3 data
      = some ⟨fun k r c => if k.val = i3 then data r c else t.array k r c⟩ := by
  unfold tensor3.set_frontal_slice_fwd
  rw [if_neg (by omega), tensor3.set_slice_of_lt t i3 h]
  congr 2
  funext k r c
  split <;> rfl

theorem tensor3.set_frontal_slice_bwd_eq (t : tensor3 I1 I2 I3 T) (i3 : Nat) (h : i3 < I3)
    (data : matrix I2 I1 T) :
    t.set_frontal_slice_bwd i3 data
      = some ⟨fun k r c => if k.val = i3 then data c r else t.array k r c⟩ := by
  unfold tensor3.set_frontal_slice_bwd
  rw [if_neg (by omega)]
  simp only []
  rw [tensor3.set_slice_of_lt t i3 h]
  congr 2
  funext k r c
  split <;> rfl

theorem tensor3.set_lateral_slice_bwd_eq (t : tensor3 I1 I2 I3 T) (i2 : Nat) (h : i2 < I2)
    (data : matrix I1 I3 T) :
    t.set_lateral_slice_bwd i2 data
      = some ⟨fun k r c => if c.val = i2 then data r k else t.array k r c⟩ := by
  unfold tensor3.set_lateral_slice_bwd
  rw [if_neg (by omega), tensor3.lateral_set_loop t i2 h]

theorem tensor3.set_lateral_slice_fwd_eq (t : tensor3 I1 I2 I3 T) (i2 : Nat) (h : i2 < I2)
    (data : matrix I3 I1 T) :
    t.set_lateral_slice_fwd i2 data
      = some ⟨fun k r c => if c.val = i2 then data k r else t.array k r c⟩ := by
  unfold tensor3.set_lateral_slice_fwd
  rw [if_neg (by omega)]
  simp only []
  rw [tensor3.lateral_set_loop t i2 h]
  rfl

theorem tensor3.set_horizontal_slice_fwd_eq (t : tensor3 I1 I2 I3 T) (i1 : Nat) (h : i1 < I1)
    (data : matrix I2 I3 T) :
    t.set_horizontal_slice_fwd i1 data
      = some ⟨fun k r c => if r.val = i1 then data c k else t.array k r c⟩ := by
  unfold tensor3.set_horizontal_slice_fwd
  rw [if_neg (by omega), tensor3.horizontal_set_loop t i1 h]

theorem tensor3.set_horizontal_slice_bwd_eq (t : tensor3 I1 I2 I3 T) (i1 : Nat) (h : i1 < I1)
    (data : matrix I3 I2 T) :
    t.set_horizontal_slice_bwd i1 data
      = some ⟨fun k r c => if r.val = i1 then data k c else t.array k r c⟩ := by
  unfold tensor3.set_horizontal_slice_bwd
  rw [if_neg (by omega)]
  simp only []
  rw [tensor3.horizontal_set_loop t i1 h]
  rfl

end slice_lemmas

/-! ## Closed forms of the mode products -/

section product_lemmas

variable {T : Type} [CommRing T] {I1 I2 I3 J1 J2 J3 : Nat}

theorem tensor3.multiply_lateral_bwd_eq (uninit : (M N : Nat) → matrix M N T)
    (self : tensor3 I1 I2 I3 T) (other : tensor3 J1 J2 I3 T) (U : matrix I1 J1 T)
    (hJ : J2 ≤ I2) :
    self.multiply_lateral_bwd uninit other U
      = some ⟨fun k r c =>
          if h : c.val < J2 then ∑ j : Fin J1, U r j * other.array k j ⟨c.val, h⟩
          else self.array k r c⟩ := by
  unfold tensor3.multiply_lateral_bwd
  refine forLoop_map_eq_of_inv
    (fun k (st : tensor3 I1 I2 I3 T × matrix J1 I3 T × matrix I1 I3 T) =>
      ∀ i3 r c, st.1.array i3 r c
        = if h : c.val < k ∧ c.val < J2 then
            ∑ j : Fin J1, U r j * other.array i3 j ⟨c.val, h.2⟩
          else self.array i3 r c)
    _ _ _ _ _ ?_ ?_ ?_
  · intro i3 r c; simp
  · intro k st hk hst
    refine ⟨_, by
      rw [tensor3.get_lateral_slice_bwd_eq other k hk, Option.some_bind]
      simp only []
      rw [tensor3.set_lateral_slice_bwd_eq st.1 k (by omega), Option.some_bind], ?_⟩
    intro i3 r c
    by_cases hc : c.val = k
    · have h1 : c.val < k + 1 ∧ c.val < J2 := by omega
      simp only [hc, if_true]
      rw [dif_pos (by omega)]
      simp only [matrix.multiply]
    · simp only [hc, if_false, hst i3 r c]
      by_cases h2 : c.val < k ∧ c.val < J2
      · rw [dif_pos h2, dif_pos (by omega)]
      · rw [dif_neg h2, dif_neg (by omega)]
  · intro st hP
    cases st with
    | mk s rest =>
      cases s with
      | mk arr =>
        simp only at hP
        show tensor3.mk arr = _
        congr 1
        funext i3 r c
        rw [hP i3 r c]
        by_cases h2 : c.val < J2
        · rw [dif_pos h2, dif_pos ⟨h2, h2⟩]
        · rw [dif_neg h2, dif_neg (by omega)]

theorem tensor3.multiply_frontal_bwd_eq (uninit : (M N : Nat) → matrix M N T)
    (self : tensor3 I1 I2 I3 T) (other : tensor3 I1 J2 J3 T) (U : matrix I2 J2 T)
    (hJ : J3 ≤ I3) :
    self.multiply_frontal_bwd uninit other U
      = some ⟨fun k r c =>
          if h : k.val < J3 then ∑ j : Fin J2, U c j * other.array ⟨k.val, h⟩ r j
          else self.array k r c⟩ := by
  unfold tensor3.multiply_frontal_bwd
  refine forLoop_map_eq_of_inv
    (fun k (st : tensor3 I1 I2 I3 T × matrix J2 I1 T × matrix I2 I1 T) =>
      ∀ i3 r c, st.1.array i3 r c
        = if h : i3.val < k ∧ i3.val < J3 then
            ∑ j : Fin J2, U c j * other.array ⟨i3.val, h.2⟩ r j
          else self.array i3 r c)
    _ _ _ _ _ ?_ ?_ ?_
  · intro i3 r c; simp
  · intro k st hk hst
    refine ⟨_, by
      rw [tensor3.get_frontal_slice_bwd_eq other k hk, Option.some_bind]
      simp only []
      rw [tensor3.set_frontal_slice_bwd_eq st.1 k (by omega), Option.some_bind], ?_⟩
    intro i3 r c
    by_cases hc : i3.val = k
    · simp only [hc, if_true]
      rw [dif_pos (by omega)]
      simp only [matrix.multiply]
    · simp only [hc, if_false, hst i3 r c]
      by_cases h2 : i3.val < k ∧ i3.val < J3
      · rw [dif_pos h2, dif_pos (by omega)]
      · rw [dif_neg h2, dif_neg (by omega)]
  · intro st hP
    cases st with
    | mk s rest =>
      cases s with
      | mk arr =>
        simp only at hP
        show tensor3.mk arr = _
        congr 1
        funext i3 r c
        rw [hP i3 r c]
        by_cases h2 : i3.val < J3
        · rw [dif_pos h2, dif_pos ⟨h2, h2⟩]
        · rw [dif_neg h2, dif_neg (by omega)]

theorem tensor3.multiply_horizontal_bwd_eq (uninit : (M N : Nat) → matrix M N T)
    (self : tensor3 I1 I2 I3 T) (other : tensor3 J1 I2 J3 T) (U : matrix I3 J3 T)
    (hJ : J1 ≤ I1) :
    self.multiply_horizontal_bwd uninit other U
      = some ⟨fun k r c =>
          if h : r.val < J1 then ∑ j : Fin J3, U k j * other.array j ⟨r.val, h⟩ c
          else self.array k r c⟩ := by
  unfold tensor3.multiply_horizontal_bwd
  refine forLoop_map_eq_of_inv
    (fun k (st : tensor3 I1 I2 I3 T × matrix J3 I2 T × matrix I3 I2 T) =>
      ∀ i3 r c, st.1.array i3 r c
        = if h : r.val < k ∧ r.val < J1 then
            ∑ j : Fin J3, U i3 j * other.array j ⟨r.val, h.2⟩ c
          else self.array i3 r c)
    _ _ _ _ _ ?_ ?_ ?_
  · intro i3 r c; simp
  · intro k st hk hst
    refine ⟨_, by
      rw [tensor3.get_horizontal_slice_bwd_eq uninit other k hk, Option.some_bind]
      simp only []
      rw [tensor3.set_horizontal_slice_bwd_eq st.1 k (by omega), Option.some_bind], ?_⟩
    intro i3 r c
    by_cases hc : r.val = k
    · simp only [hc, if_true]
      rw [dif_pos (by omega)]
      simp only [matrix.multiply]
    · simp only [hc, if_false, hst i3 r c]
      by_cases h2 : r.val < k ∧ r.val < J1
      · rw [dif_pos h2, dif_pos (by omega)]
      · rw [dif_neg h2, dif_neg (by omega)]
  · intro st hP
    cases st with
    | mk s rest =>
      cases s with
      | mk arr =>
        simp only at hP
        show tensor3.mk arr = _
        congr 1
        funext i3 r c
        rw [hP i3 r c]
        by_cases h2 : r.val < J1
        · rw [dif_pos h2, dif_pos ⟨h2, h2⟩]
        · rw [dif_neg h2, dif_neg (by omega)]

theorem tensor3.full_tensor3_matrix_multiplication_eq
    (uninit : (M N : Nat) → matrix M N T)
    (self : tensor3 I1 I2 I3 T) (core : tensor3 J1 J2 J3 T)
    (U1 : matrix I1 J1 T) (U2 : matrix I2 J2 T) (U3 : matrix I3 J3 T) :
    self.full_tensor3_matrix_multiplication uninit core U1 U2 U3
      = some ⟨fun k r c =>
          ∑ j3 : Fin J3, U3 k j3 *
            ∑ j2 : Fin J2, U2 c j2 * ∑ j1 : Fin J1, U1 r j1 * core.array j3 j1 j2⟩ := by
  unfold tensor3.full_tensor3_matrix_multiplication
  simp only []
  rw [tensor3.multiply_lateral_bwd_eq uninit _ core U1 (Nat.le_refl _), Option.some_bind,
    tensor3.multiply_frontal_bwd_eq uninit _ _ U2 (Nat.le_refl _), Option.some_bind,
    tensor3.multiply_horizontal_bwd_eq uninit self _ U3 (Nat.le_refl _)]
  congr 2
  funext k r c
  simp only [Fin.is_lt, dite_true, Fin.eta]

theorem sum_identity_mul {n : Nat} (i : Fin n) (f : Fin n → T) :
    ∑ j : Fin n, (matrix.identity : matrix n n T) i j * f j = f i := by
  simp [matrix.identity]

end product_lemmas

/-! ## Closed form of the exact comparison -/

section comparison_lemmas

variable {T : Type} [DecidableEq T] {I1 I2 I3 : Nat}

theorem tensor3.operator_eq_loop_iff (a b : tensor3 I1 I2 I3 T) (n : Nat) :
    ∀ (i3 : Nat) (ok : Bool), I3 - i3 = n →
      (tensor3.operator_eq_loop a b i3 ok = true
        ↔ ok = true ∧ ∀ k : Fin I3, i3 ≤ k.val → a.array k = b.array k) := by
  induction n with
  | zero =>
    intro i3 ok hn
    unfold tensor3.operator_eq_loop
    rw [dif_neg (by omega)]
    constructor
    · intro h
      exact ⟨h, fun k hk => absurd k.isLt (by omega)⟩
    · intro h
      exact h.1
  | succ m ih =>
    intro i3 ok hn
    unfold tensor3.operator_eq_loop
    by_cases hok : ok = true
    · have hlt : i3 < I3 := by omega
      rw [dif_pos ⟨hok, hlt⟩, ih (i3 + 1) _ (by omega)]
      simp only [matrix.operator_eq, decide_eq_true_eq, hok, true_and]
      constructor
      · rintro ⟨h0, h1⟩ k hk
        by_cases hk0 : k.val = i3
        · have : k = ⟨i3, hlt⟩ := Fin.ext hk0
          rw [this]; exact h0
        · exact h1 k (by omega)
      · intro h
        exact ⟨h ⟨i3, hlt⟩ (Nat.le_refl _), fun k hk => h k (by omega)⟩
    · rw [dif_neg (fun h => hok h.1)]
      simp [hok]

theorem tensor3.operator_eq_iff (a b : tensor3 I1 I2 I3 T) :
    a.operator_eq b = true ↔ a = b := by
  unfold tensor3.operator_eq
  rw [tensor3.operator_eq_loop_iff a b (I3 - 0) 0 true rfl]
  constructor
  · intro h
    cases a with
    | mk x =>
      cases b with
      | mk y =>
        congr 1
        funext k
        exact h.2 k (Nat.zero_le _)
  · intro h
    subst h
    exact ⟨rfl, fun _ _ => rfl⟩

end comparison_lemmas

/-! ## Closed form of the unfolding loops -/

section unfolding_lemmas

variable {T : Type}

theorem block_index_unique {W b w i col : Nat} (hw : w < W) (hcol : col < W)
    (h : b * W + w = i * W + col) : b = i ∧ w = col := by
  have hW : 0 < W := by omega
  have hb : (b * W + w) / W = b := by
    rw [Nat.add_comm, Nat.add_mul_div_right _ _ hW, Nat.div_eq_of_lt hw, Nat.zero_add]
  have hi : (i * W + col) / W = i := by
    rw [Nat.add_comm, Nat.add_mul_div_right _ _ hW, Nat.div_eq_of_lt hcol, Nat.zero_add]
  have hbi : b = i := by rw [← hb, ← hi, h]
  subst hbi
  exact ⟨rfl, Nat.add_left_cancel h⟩

theorem block_index_lt {B W i col : Nat} (hi : i < B) (hcol : col < W) :
    i * W + col < B * W := by
  calc i * W + col < i * W + W := by omega
    _ = (i + 1) * W := (Nat.succ_mul i W).symm
    _ ≤ B * W := Nat.mul_le_mul_right W hi

/-- The loop shared by the three unfoldings: slice `i` is fetched by `getS` and its `W`
columns are copied to the columns `i * W + col` of the result. -/
theorem block_columns_loop {R C B W : Nat} (hC : B * W = C)
    (getS : Nat → matrix R W T → Option (matrix R W T)) (f : Fin B → matrix R W T)
    (hget : ∀ (i : Nat) (h : i < B) (d : matrix R W T), getS i d = some (f ⟨i, h⟩))
    (m0 : matrix R C T) (s0 : matrix R W T) :
    ∃ st, forLoop B (fun i (st : matrix R C T × matrix R W T × List Nat) =>
        (getS i st.2.1).bind fun slice =>
        forLoop W (fun col (st : matrix R C T × matrix R W T × List Nat) =>
          (matrix.get_column st.2.1 col).bind fun column =>
          (matrix.set_column st.1 (i * W + col) column).bind fun matricization =>
          some (matricization, st.2.1, st.2.2 ++ [i * W + col]))
          (st.1, slice, st.2.2))
        (m0, s0, []) = some st ∧
      (∀ (r : Fin R) (b : Fin B) (w : Fin W) (h : b.val * W + w.val < C),
        st.1 r ⟨b.val * W + w.val, h⟩ = f b r w) ∧
      st.2.2 = List.range C := by
  obtain ⟨st, hst, hP⟩ := forLoop_inv
    (fun i (st : matrix R C T × matrix R W T × List Nat) => unfolded_upto f m0 (i * W) st)
    B (fun i (st : matrix R C T × matrix R W T × List Nat) =>
        (getS i st.2.1).bind fun slice =>
        forLoop W (fun col (st : matrix R C T × matrix R W T × List Nat) =>
          (matrix.get_column st.2.1 col).bind fun column =>
          (matrix.set_column st.1 (i * W + col) column).bind fun matricization =>
          some (matricization, st.2.1, st.2.2 ++ [i * W + col]))
          (st.1, slice, st.2.2))
    (m0, s0, [])
    (by
      refine ⟨?_, ?_, ?_⟩
      · intro r c hc; simp at hc
      · intro r c _; rfl
      · simp)
    (by
      intro i st hi hst
      simp only []
      rw [hget i hi, Option.some_bind]
      obtain ⟨s, hs, hQ⟩ := forLoop_inv
        (fun col (s : matrix R C T × matrix R W T × List Nat) =>
          unfolded_upto f m0 (i * W + col) s ∧ s.2.1 = f ⟨i, hi⟩)
        W (fun col (st : matrix R C T × matrix R W T × List Nat) =>
          (matrix.get_column st.2.1 col).bind fun column =>
          (matrix.set_column st.1 (i * W + col) column).bind fun matricization =>
          some (matricization, st.2.1, st.2.2 ++ [i * W + col]))
        (st.1, f ⟨i, hi⟩, st.2.2)
        ⟨by simpa [unfolded_upto] using hst, rfl⟩
        (by
          intro col s hcol hs
          obtain ⟨⟨h1, h2, h3⟩, h4⟩ := hs
          have hlt : i * W + col < C := hC ▸ block_index_lt hi hcol
          simp only []
          rw [matrix.get_column_of_lt _ col hcol, Option.some_bind,
            matrix.set_column_of_lt _ _ hlt, Option.some_bind]
          refine ⟨_, rfl, ⟨?_, ?_, ?_⟩, h4⟩
          · intro r c hc b w hbw
            by_cases hck : c.val = i * W + col
            · obtain ⟨hb, hw⟩ := block_index_unique w.isLt hcol (hbw.symm.trans hck)
              have hb2 : b = ⟨i, hi⟩ := Fin.ext hb
              have hw2 : w = ⟨col, hcol⟩ := Fin.ext hw
              simp only [hck, if_true, h4, hb2, hw2]
            · simp only [hck, if_false]
              exact h1 r c (by omega) b w hbw
          · intro r c hc
            have hck : ¬ c.val = i * W + col := by omega
            simp only [hck, if_false]
            exact h2 r c (by omega)
          · simp only [h3]
            exact (List.range_succ (i * W + col)).symm)
      refine ⟨s, hs, ?_⟩
      have : (i + 1) * W = i * W + W := Nat.succ_mul i W
      simp only [this]
      exact hQ.1)
  refine ⟨st, hst, ?_, ?_⟩
  · intro r b w h
    exact hP.1 r ⟨b.val * W + w.val, h⟩ (by simpa [hC] using h) b w rfl
  · rw [hP.2.2, hC]

theorem tensor3.lateral_matricization_bwd_written_spec {I1 I2 I3 : Nat}
    (uninit : (M N : Nat) → matrix M N T) (t : tensor3 I1 I2 I3 T)
    (matricization : matrix I1 (I2 * I3) T) :
    ∃ st, t.lateral_matricization_bwd_written uninit matricization = some st ∧
      (∀ (r : Fin I1) (b : Fin I2) (w : Fin I3) (h : b.val * I3 + w.val < I2 * I3),
        st.1 r ⟨b.val * I3 + w.val, h⟩ = t.array w r b) ∧
      st.2.2 = List.range (I2 * I3) :=
  block_columns_loop rfl (fun i d => t.get_lateral_slice_bwd i d)
    (fun b r w => t.array w r b)
    (fun i h d => t.get_lateral_slice_bwd_eq i h d) matricization (uninit I1 I3)

theorem tensor3.frontal_matricization_bwd_written_spec {I1 I2 I3 : Nat}
    (uninit : (M N : Nat) → matrix M N T) (t : tensor3 I1 I2 I3 T)
    (matricization : matrix I2 (I1 * I3) T) :
    ∃ st, t.frontal_matricization_bwd_written uninit matricization = some st ∧
      (∀ (r : Fin I2) (b : Fin I3) (w : Fin I1) (h : b.val * I1 + w.val < I1 * I3),
        st.1 r ⟨b.val * I1 + w.val, h⟩ = t.array b w r) ∧
      st.2.2 = List.range (I1 * I3) :=
  block_columns_loop (Nat.mul_comm I3 I1) (fun i d => t.get_frontal_slice_bwd i d)
    (fun b r w => t.array b w r)
    (fun i h d => t.get_frontal_slice_bwd_eq i h d) matricization (uninit I2 I1)

theorem tensor3.horizontal_matricization_bwd_written_spec {I1 I2 I3 : Nat}
    (uninit : (M N : Nat) → matrix M N T) (t : tensor3 I1 I2 I3 T)
    (matricization : matrix I3 (I1 * I2) T) :
    ∃ st, t.horizontal_matricization_bwd_written uninit matricization = some st ∧
      (∀ (r : Fin I3) (b : Fin I1) (w : Fin I2) (h : b.val * I2 + w.val < I1 * I2),
        st.1 r ⟨b.val * I2 + w.val, h⟩ = t.array r b w) ∧
      st.2.2 = List.range (I1 * I2) :=
  block_columns_loop rfl (fun i d => t.get_horizontal_slice_bwd uninit i d)
    (fun b r w => t.array r b w)
    (fun i h d => t.get_horizontal_slice_bwd_eq uninit i h d) matricization (uninit I3 I2)

end unfolding_lemmas

/-! ## Closed forms of element access and of the iterator -/

section iterator_lemmas

variable {T : Type} {I1 I2 I3 : Nat}

theorem iterator_index_lt {k : Nat} (h : k < I1 * I2 * I3) :
    k % I1 < I1 ∧ k / I1 % I2 < I2 ∧ k / (I1 * I2) < I3 := by
  have h1 : 0 < I1 := by
    rcases Nat.eq_zero_or_pos I1 with h0 | h0
    · simp [h0] at h
    · exact h0
  have h2 : 0 < I2 := by
    rcases Nat.eq_zero_or_pos I2 with h0 | h0
    · simp [h0] at h
    · exact h0
  exact ⟨Nat.mod_lt _ h1, Nat.mod_lt _ h2, Nat.div_lt_of_lt_mul h⟩

theorem iterator_index_offset (I1 I2 k : Nat) :
    k / (I1 * I2) * (I1 * I2) + k / I1 % I2 * I1 + k % I1 = k := by
  have h1 := Nat.div_add_mod k I1
  have h2 := Nat.div_add_mod (k / I1) I2
  rw [Nat.div_div_eq_div_mul] at h2
  calc k / (I1 * I2) * (I1 * I2) + k / I1 % I2 * I1 + k % I1
      = I1 * (I2 * (k / (I1 * I2)) + k / I1 % I2) + k % I1 := by ring
    _ = k := by rw [h2, h1]

theorem offset_unique {i1 i2 i3 j1 j2 j3 : Nat} (hi1 : i1 < I1) (hj1 : j1 < I1)
    (hi2 : i2 < I2) (hj2 : j2 < I2)
    (h : i3 * (I1 * I2) + i2 * I1 + i1 = j3 * (I1 * I2) + j2 * I1 + j1) :
    i1 = j1 ∧ i2 = j2 ∧ i3 = j3 := by
  have e : ∀ a b c : Nat, a * (I1 * I2) + b * I1 + c = (a * I2 + b) * I1 + c := by
    intro a b c; ring
  rw [e, e] at h
  obtain ⟨h12, h3⟩ := block_index_unique hi1 hj1 h
  obtain ⟨h1, h2⟩ := block_index_unique hi2 hj2 h12
  exact ⟨h3, h2, h1⟩

theorem offset_lt {i1 i2 i3 : Nat} (hi1 : i1 < I1) (hi2 : i2 < I2) (hi3 : i3 < I3) :
    i3 * (I1 * I2) + i2 * I1 + i1 < I1 * I2 * I3 := by
  have h := block_index_lt (block_index_lt hi3 hi2) hi1
  have e : i3 * (I1 * I2) + i2 * I1 + i1 = (i3 * I2 + i2) * I1 + i1 := by ring
  have e2 : I1 * I2 * I3 = I3 * I2 * I1 := by ring
  rw [e, e2]
  exact h

theorem offset_surjective {k : Nat} (h : k < I1 * I2 * I3) :
    ∃ (i1 : Fin I1) (i2 : Fin I2) (i3 : Fin I3),
      i3.val * (I1 * I2) + i2.val * I1 + i1.val = k := by
  obtain ⟨h1, h2, h3⟩ := iterator_index_lt h
  exact ⟨⟨_, h1⟩, ⟨_, h2⟩, ⟨_, h3⟩, iterator_index_offset I1 I2 k⟩

theorem iterator_index_of_offset (i1 : Fin I1) (i2 : Fin I2) (i3 : Fin I3) :
    tensor3.iterator_index I1 I2 (i3.val * (I1 * I2) + i2.val * I1 + i1.val)
      = (i1.val, i2.val, i3.val) := by
  have hlt := offset_lt i1.isLt i2.isLt i3.isLt
  obtain ⟨h1, h2, _⟩ := iterator_index_lt hlt
  obtain ⟨e1, e2, e3⟩ := offset_unique h1 i1.isLt h2 i2.isLt
    (iterator_index_offset I1 I2 (i3.val * (I1 * I2) + i2.val * I1 + i1.val))
  simp only [tensor3.iterator_index, e1, e2, e3]

theorem matrix.set_at_of_lt {M N : Nat} (m : matrix M N T) (row col : Nat) (hr : row < M)
    (hc : col < N) (value : T) :
    matrix.set_at m row col value
      = some (fun r c => if r.val = row ∧ c.val = col then value else m r c) := by
  simp [matrix.set_at, hr, hc]

theorem tensor3.set_at_of_fin (t : tensor3 I1 I2 I3 T) (i1 : Fin I1) (i2 : Fin I2)
    (i3 : Fin I3) (value : T) :
    t.set_at i1 i2 i3 value
      = some ⟨fun k r c => if k = i3 ∧ r = i1 ∧ c = i2 then value else t.array k r c⟩ := by
  unfold tensor3.set_at
  rw [if_neg (by have := i3.isLt; omega), tensor3.slice_of_lt t i3 i3.isLt, Option.some_bind,
    matrix.set_at_of_lt _ _ _ i1.isLt i2.isLt, Option.some_bind,
    tensor3.set_slice_of_lt t i3 i3.isLt]
  congr 2
  funext k r c
  by_cases hk : k = i3
  · subst hk
    by_cases hr : r = i1
    · subst hr
      by_cases hc : c = i2
      · subst hc; simp
      · have hc2 : ¬ c.val = i2.val := fun h => hc (Fin.ext h)
        simp [hc, hc2]
    · have hr2 : ¬ r.val = i1.val := fun h => hr (Fin.ext h)
      simp [hr, hr2]
  · have hk2 : ¬ k.val = i3.val := fun h => hk (Fin.ext h)
    simp [hk, hk2]

theorem tensor3.iterator_read_offset (t : tensor3 I1 I2 I3 T) (i1 : Fin I1) (i2 : Fin I2)
    (i3 : Fin I3) :
    t.iterator_read (i3.val * (I1 * I2) + i2.val * I1 + i1.val) = some (t.array i3 i1 i2) := by
  unfold tensor3.iterator_read
  rw [iterator_index_of_offset]
  exact tensor3.at_of_fin t i1 i2 i3

theorem tensor3.iterator_write_offset (t : tensor3 I1 I2 I3 T) (i1 : Fin I1) (i2 : Fin I2)
    (i3 : Fin I3) (value : T) :
    t.iterator_write (i3.val * (I1 * I2) + i2.val * I1 + i1.val) value
      = some ⟨fun k r c => if k = i3 ∧ r = i1 ∧ c = i2 then value else t.array k r c⟩ := by
  unfold tensor3.iterator_write
  rw [iterator_index_of_offset]
  exact tensor3.set_at_of_fin t i1 i2 i3 value

/-- One step of a loop over the iterator, element by element: once the element at offset `n`
is written, the elements at offsets below `n + 1` hold their new value. -/
theorem offset_step_cases {α : Type} (i1 j1 : Fin I1) (i2 j2 : Fin I2) (i3 j3 : Fin I3)
    (new old x : α) (hx : j3 = i3 ∧ j1 = i1 ∧ j2 = i2 → x = new) :
    (if j3 = i3 ∧ j1 = i1 ∧ j2 = i2 then x
      else if j3.val * (I1 * I2) + j2.val * I1 + j1.val
          < i3.val * (I1 * I2) + i2.val * I1 + i1.val then new else old)
      = if j3.val * (I1 * I2) + j2.val * I1 + j1.val
          < i3.val * (I1 * I2) + i2.val * I1 + i1.val + 1 then new else old := by
  by_cases h : j3 = i3 ∧ j1 = i1 ∧ j2 = i2
  · rw [if_pos h, hx h]
    obtain ⟨h3, h1, h2⟩ := h
    subst h3 h1 h2
    simp
  · have hne : j3.val * (I1 * I2) + j2.val * I1 + j1.val
        ≠ i3.val * (I1 * I2) + i2.val * I1 + i1.val := by
      intro he
      obtain ⟨e1, e2, e3⟩ := offset_unique j1.isLt i1.isLt j2.isLt i2.isLt he
      exact h ⟨Fin.ext e3, Fin.ext e1, Fin.ext e2⟩
    have hlt : (j3.val * (I1 * I2) + j2.val * I1 + j1.val
        < i3.val * (I1 * I2) + i2.val * I1 + i1.val + 1)
        = (j3.val * (I1 * I2) + j2.val * I1 + j1.val
        < i3.val * (I1 * I2) + i2.val * I1 + i1.val) := by
      apply propext; omega
    simp only [h, if_false, hlt]

theorem tensor3.fill_eq (t : tensor3 I1 I2 I3 T) (fillValue : T) :
    t.fill fillValue = some ⟨fun _ _ _ => fillValue⟩ := by
  unfold tensor3.fill
  refine forLoop_eq_of_inv
    (fun n (s : tensor3 I1 I2 I3 T) =>
      ∀ k r c, s.array k r c = if k.val < n then fillValue else t.array k r c)
    _ _ _ _ ?_ ?_ ?_
  · intro k r c; simp
  · intro n s hn hs
    refine ⟨_, by
      rw [tensor3.slice_of_lt s n hn, Option.some_bind, tensor3.set_slice_of_lt s n hn], ?_⟩
    intro k r c
    by_cases hk : k.val = n
    · simp [hk, matrix.fill]
    · have h1 : (k.val < n + 1) = (k.val < n) := by
        apply propext; omega
      simp only [hk, if_false, hs k r c, h1]
  · intro s hP
    cases s with
    | mk arr =>
      congr 1
      funext k r c
      have := hP k r c
      simp only [k.isLt, if_true] at this
      exact this

theorem tensor3.export_to_spec (t : tensor3 I1 I2 I3 T) (data : List T) :
    ∃ e, t.export_to data = some e ∧ e.length = I1 * I2 * I3 ∧
      ∀ (i1 : Fin I1) (i2 : Fin I2) (i3 : Fin I3),
        e[i3.val * (I1 * I2) + i2.val * I1 + i1.val]? = some (t.array i3 i1 i2) := by
  unfold tensor3.export_to
  obtain ⟨e, he, hlen, hP⟩ := forLoop_inv
    (fun n (data_ : List T) => data_.length = n ∧
      ∀ (i1 : Fin I1) (i2 : Fin I2) (i3 : Fin I3),
        i3.val * (I1 * I2) + i2.val * I1 + i1.val < n →
        data_[i3.val * (I1 * I2) + i2.val * I1 + i1.val]? = some (t.array i3 i1 i2))
    (I1 * I2 * I3)
    (fun it data_ => (t.iterator_read it).bind fun value => some (data_ ++ [value])) []
    ⟨rfl, fun _ _ _ h => absurd h (Nat.not_lt_zero _)⟩
    (by
      intro n data_ hn hs
      obtain ⟨hlen, hs⟩ := hs
      obtain ⟨q1, q2, q3, hq⟩ := offset_surjective hn
      subst hq
      simp only []
      rw [tensor3.iterator_read_offset, Option.some_bind]
      refine ⟨_, rfl, by simp [hlen], ?_⟩
      intro i1 i2 i3 hlt
      by_cases he : i3.val * (I1 * I2) + i2.val * I1 + i1.val
          = q3.val * (I1 * I2) + q2.val * I1 + q1.val
      · obtain ⟨e1, e2, e3⟩ := offset_unique i1.isLt q1.isLt i2.isLt q2.isLt he
        have h1 : i1 = q1 := Fin.ext e1
        have h2 : i2 = q2 := Fin.ext e2
        have h3 : i3 = q3 := Fin.ext e3
        subst h1 h2 h3
        rw [← hlen]
        exact List.getElem?_concat_length _ _
      · rw [List.getElem?_append_left (by omega)]
        exact hs i1 i2 i3 (by omega))
  exact ⟨e, he, hlen, fun i1 i2 i3 => hP i1 i2 i3 (offset_lt i1.isLt i2.isLt i3.isLt)⟩

theorem tensor3.import_from_eq [Zero T] (t : tensor3 I1 I2 I3 T) (data_ : List T) :
    t.import_from data_
      = some ⟨fun k r c => (data_[k.val * (I1 * I2) + c.val * I1 + r.val]?).getD 0⟩ := by
  unfold tensor3.import_from
  refine forLoop_map_eq_of_inv
    (fun n (st : tensor3 I1 I2 I3 T × Nat) => st.2 = n ∧
      ∀ k r c, st.1.array k r c
        = if k.val * (I1 * I2) + c.val * I1 + r.val < n then
            (data_[k.val * (I1 * I2) + c.val * I1 + r.val]?).getD 0
          else t.array k r c)
    _ _ _ _ _ ?_ ?_ ?_
  · exact ⟨rfl, fun k r c => by simp⟩
  · intro n st hn hst
    obtain ⟨hcount, hst⟩ := hst
    obtain ⟨q1, q2, q3, hq⟩ := offset_surjective hn
    subst hq
    have hw : (if st.2 ≥ data_.length then
          st.1.iterator_write (q3.val * (I1 * I2) + q2.val * I1 + q1.val) 0
        else (data_[st.2]?).bind fun value =>
          st.1.iterator_write (q3.val * (I1 * I2) + q2.val * I1 + q1.val) value)
        = st.1.iterator_write (q3.val * (I1 * I2) + q2.val * I1 + q1.val)
            ((data_[q3.val * (I1 * I2) + q2.val * I1 + q1.val]?).getD 0) := by
      rw [hcount]
      by_cases hge : q3.val * (I1 * I2) + q2.val * I1 + q1.val ≥ data_.length
      · rw [if_pos hge, List.getElem?_eq_none hge]
        rfl
      · rw [if_neg hge, List.getElem?_eq_getElem (by omega)]
        rfl
    simp only []
    rw [hw, tensor3.iterator_write_offset, Option.some_bind]
    refine ⟨_, rfl, by simp [hcount], ?_⟩
    intro k r c
    simp only [hst k r c]
    exact offset_step_cases q1 r q2 c q3 k _ _ _
      (fun h => by obtain ⟨h3, h1, h2⟩ := h; subst h3 h1 h2; rfl)
  · intro st hP
    cases st with
    | mk s cnt =>
      cases s with
      | mk arr =>
        obtain ⟨_, hP⟩ := hP
        simp only at hP
        show tensor3.mk arr = _
        congr 1
        funext k r c
        exact (hP k r c).trans (if_pos (offset_lt r.isLt c.isLt k.isLt))

theorem tensor3.operator_add_assign_eq [Add T] (self other : tensor3 I1 I2 I3 T) :
    self.operator_add_assign other
      = some ⟨fun k r c => self.array k r c + other.array k r c⟩ := by
  unfold tensor3.operator_add_assign
  refine forLoop_eq_of_inv
    (fun n (s : tensor3 I1 I2 I3 T) =>
      ∀ k r c, s.array k r c
        = if k.val * (I1 * I2) + c.val * I1 + r.val < n then
            self.array k r c + other.array k r c
          else self.array k r c)
    _ _ _ _ ?_ ?_ ?_
  · intro k r c; simp
  · intro n s hn hs
    obtain ⟨q1, q2, q3, hq⟩ := offset_surjective hn
    subst hq
    simp only []
    rw [tensor3.iterator_read_offset, Option.some_bind, tensor3.iterator_read_offset,
      Option.some_bind, tensor3.iterator_write_offset]
    refine ⟨_, rfl, ?_⟩
    intro k r c
    have hq := hs q3 q1 q2
    rw [if_neg (Nat.lt_irrefl _)] at hq
    simp only [hs k r c, hq]
    exact offset_step_cases q1 r q2 c q3 k _ _ _
      (fun h => by obtain ⟨h3, h1, h2⟩ := h; subst h3 h1 h2; rfl)
  · intro s hP
    cases s with
    | mk arr =>
      congr 1
      funext k r c
      exact (hP k r c).trans (if_pos (offset_lt r.isLt c.isLt k.isLt))

end iterator_lemmas

/-! ## Closed forms of the Frobenius sum and of the row-major loops -/

section row_major_lemmas

variable {T : Type} {I1 I2 I3 : Nat}

theorem tensor3.frobenius_norm_sum_eq {D : Type} [AddCommMonoid D] (mul : T → T → T)
    (widen : T → D) (t : tensor3 I1 I2 I3 T) :
    t.frobenius_norm_sum mul widen
      = some (∑ i3 : Fin I3, ∑ i1 : Fin I1, ∑ i2 : Fin I2,
          widen (mul (t.array i3 i1 i2) (t.array i3 i1 i2))) := by
  unfold tensor3.frobenius_norm_sum
  refine forLoop_eq_of_inv
    (fun n (f_norm : D) => f_norm
      = ∑ p in (Finset.univ : Finset (Fin I3 × Fin I1 × Fin I2)).filter
          (fun p => p.1.val * (I1 * I2) + p.2.2.val * I1 + p.2.1.val < n),
          widen (mul (t.array p.1 p.2.1 p.2.2) (t.array p.1 p.2.1 p.2.2)))
    _ _ _ _ ?_ ?_ ?_
  · simp
  · intro n f_norm hn hf
    obtain ⟨q1, q2, q3, hq⟩ := offset_surjective hn
    subst hq
    simp only []
    rw [tensor3.iterator_read_offset, Option.some_bind]
    refine ⟨_, rfl, ?_⟩
    have hins : (Finset.univ : Finset (Fin I3 × Fin I1 × Fin I2)).filter
          (fun p => p.1.val * (I1 * I2) + p.2.2.val * I1 + p.2.1.val
            < q3.val * (I1 * I2) + q2.val * I1 + q1.val + 1)
        = insert (q3, q1, q2) ((Finset.univ : Finset (Fin I3 × Fin I1 × Fin I2)).filter
          (fun p => p.1.val * (I1 * I2) + p.2.2.val * I1 + p.2.1.val
            < q3.val * (I1 * I2) + q2.val * I1 + q1.val)) := by
      ext p
      obtain ⟨p3, p1, p2⟩ := p
      simp only [Finset.mem_filter, Finset.mem_univ, true_and, Finset.mem_insert,
        Prod.mk.injEq]
      constructor
      · intro h
        by_cases he : p3.val * (I1 * I2) + p2.val * I1 + p1.val
            = q3.val * (I1 * I2) + q2.val * I1 + q1.val
        · obtain ⟨e1, e2, e3⟩ := offset_unique p1.isLt q1.isLt p2.isLt q2.isLt he
          exact Or.inl ⟨Fin.ext e3, Fin.ext e1, Fin.ext e2⟩
        · exact Or.inr (by omega)
      · rintro (⟨h3, h1, h2⟩ | h)
        · subst h3 h1 h2
          exact Nat.lt_succ_self _
        · omega
    rw [hins, Finset.sum_insert (by simp), hf, add_comm]
  · intro f hf
    rw [hf, Finset.filter_true_of_mem (fun p _ => offset_lt p.2.1.isLt p.2.2.isLt p.1.isLt),
      Fintype.sum_prod_type]
    refine Finset.sum_congr rfl fun i3 _ => ?_
    rw [Fintype.sum_prod_type]

theorem triple_loop_inv {σ : Type} (P : Nat → σ → Prop) (A B C : Nat)
    (body : Nat → Nat → Nat → σ → Option σ) (s : σ) (h0 : P 0 s)
    (hstep : ∀ a b c s, a < A → b < B → c < C → P (a * (B * C) + b * C + c) s →
      ∃ s', body a b c s = some s' ∧ P (a * (B * C) + b * C + c + 1) s') :
    ∃ s', forLoop A (fun a s => forLoop B (fun b s =>
        forLoop C (fun c s => body a b c s) s) s) s = some s' ∧ P (A * (B * C)) s' := by
  refine forLoop_inv (fun a s => P (a * (B * C)) s) A _ s (by simpa using h0) ?_
  intro a s1 ha hs1
  have e1 : (a + 1) * (B * C) = a * (B * C) + B * C := by ring
  simp only [e1]
  refine forLoop_inv (fun b s => P (a * (B * C) + b * C) s) B _ s1 (by simpa using hs1) ?_
  intro b s2 hb hs2
  have e2 : a * (B * C) + (b + 1) * C = a * (B * C) + b * C + C := by ring
  simp only [e2]
  exact forLoop_inv (fun c s => P (a * (B * C) + b * C + c) s) C _ s2 hs2
    (fun c s3 hc hs3 => hstep a b c s3 ha hb hc hs3)

theorem row_offset_unique {i1 i2 i3 j1 j2 j3 : Nat} (hi1 : i1 < I1) (hj1 : j1 < I1)
    (hi2 : i2 < I2) (hj2 : j2 < I2)
    (h : i3 * (I1 * I2) + i1 * I2 + i2 = j3 * (I1 * I2) + j1 * I2 + j2) :
    i1 = j1 ∧ i2 = j2 ∧ i3 = j3 := by
  have e : ∀ a b c : Nat, a * (I1 * I2) + b * I2 + c = (a * I1 + b) * I2 + c := by
    intro a b c; ring
  rw [e, e] at h
  obtain ⟨h12, h3⟩ := block_index_unique hi2 hj2 h
  obtain ⟨h1, h2⟩ := block_index_unique hi1 hj1 h12
  exact ⟨h2, h3, h1⟩

theorem row_offset_lt {i1 i2 i3 : Nat} (hi1 : i1 < I1) (hi2 : i2 < I2) (hi3 : i3 < I3) :
    i3 * (I1 * I2) + i1 * I2 + i2 < I3 * (I1 * I2) := by
  have h := block_index_lt (block_index_lt hi3 hi1) hi2
  have e : i3 * (I1 * I2) + i1 * I2 + i2 = (i3 * I1 + i1) * I2 + i2 := by ring
  have e2 : I3 * (I1 * I2) = I3 * I1 * I2 := by ring
  rw [e, e2]
  exact h

/-- One step of a row-major loop, element by element: once the element at row-major offset
`n` is written, the elements at offsets below `n + 1` hold their new value. -/
theorem row_offset_step_cases {α : Type} (i1 j1 : Fin I1) (i2 j2 : Fin I2) (i3 j3 : Fin I3)
    (new old x : α) (hx : j3 = i3 ∧ j1 = i1 ∧ j2 = i2 → x = new) :
    (if j3 = i3 ∧ j1 = i1 ∧ j2 = i2 then x
      else if j3.val * (I1 * I2) + j1.val * I2 + j2.val
          < i3.val * (I1 * I2) + i1.val * I2 + i2.val then new else old)
      = if j3.val * (I1 * I2) + j1.val * I2 + j2.val
          < i3.val * (I1 * I2) + i1.val * I2 + i2.val + 1 then new else old := by
  by_cases h : j3 = i3 ∧ j1 = i1 ∧ j2 = i2
  · rw [if_pos h, hx h]
    obtain ⟨h3, h1, h2⟩ := h
    subst h3 h1 h2
    simp
  · have hne : j3.val * (I1 * I2) + j1.val * I2 + j2.val
        ≠ i3.val * (I1 * I2) + i1.val * I2 + i2.val := by
      intro he
      obtain ⟨e1, e2, e3⟩ := row_offset_unique j1.isLt i1.isLt j2.isLt i2.isLt he
      exact h ⟨Fin.ext e3, Fin.ext e1, Fin.ext e2⟩
    have hlt : (j3.val * (I1 * I2) + j1.val * I2 + j2.val
        < i3.val * (I1 * I2) + i1.val * I2 + i2.val + 1)
        = (j3.val * (I1 * I2) + j1.val * I2 + j2.val
        < i3.val * (I1 * I2) + i1.val * I2 + i2.val) := by
      apply propext; omega
    simp only [h, if_false, hlt]

theorem tensor3.fill_increasing_values_eq [NatCast T] (t : tensor3 I1 I2 I3 T) :
    t.fill_increasing_values
      = some ⟨fun k r c => ((k.val * (I1 * I2) + r.val * I2 + c.val : Nat) : T)⟩ := by
  unfold tensor3.fill_increasing_values
  obtain ⟨st, hst, hcount, hP⟩ := triple_loop_inv
    (fun n (st : tensor3 I1 I2 I3 T × Nat) => st.2 = n ∧
      ∀ k r c, st.1.array k r c
        = if k.val * (I1 * I2) + r.val * I2 + c.val < n then
            ((k.val * (I1 * I2) + r.val * I2 + c.val : Nat) : T)
          else t.array k r c)
    I3 I1 I2
    (fun i3 i1 i2 (st : tensor3 I1 I2 I3 T × Nat) =>
      (st.1.set_at i1 i2 i3 (st.2 : T)).bind fun t => some (t, st.2 + 1))
    (t, 0) ⟨rfl, fun k r c => by simp⟩
    (by
      intro i3 i1 i2 st h3 h1 h2 hst
      obtain ⟨hcount, hst⟩ := hst
      have hw := tensor3.set_at_of_fin st.1 ⟨i1, h1⟩ ⟨i2, h2⟩ ⟨i3, h3⟩ (st.2 : T)
      simp only [] at hw ⊢
      rw [hw, Option.some_bind]
      refine ⟨_, rfl, by simp [hcount], ?_⟩
      intro k r c
      simp only [hst k r c, hcount]
      exact row_offset_step_cases ⟨i1, h1⟩ r ⟨i2, h2⟩ c ⟨i3, h3⟩ k _ _ _
        (fun h => by obtain ⟨e3, e1, e2⟩ := h; subst e3 e1 e2; rfl))
  rw [hst, Option.map_some']
  cases st with
  | mk s cnt =>
    cases s with
    | mk arr =>
      simp only at hP
      show some (tensor3.mk arr) = _
      congr 2
      funext k r c
      exact (hP k r c).trans (if_pos (row_offset_lt r.isLt c.isLt k.isLt))

theorem tensor3.set_row_major_eq (t : tensor3 I1 I2 I3 T) (data : List T) :
    t.set data true
      = some ⟨fun k r c =>
          (data[k.val * (I1 * I2) + r.val * I2 + c.val]?).getD (t.array k r c)⟩ := by
  unfold tensor3.set
  rw [if_pos rfl]
  obtain ⟨st, hst, _, _, hP⟩ := triple_loop_inv
    (fun n (st : tensor3 I1 I2 I3 T × Nat × Bool) =>
      st.2.1 = min n data.length ∧ st.2.2 = decide (data.length < n) ∧
      ∀ k r c, st.1.array k r c
        = if k.val * (I1 * I2) + r.val * I2 + c.val < n then
            (data[k.val * (I1 * I2) + r.val * I2 + c.val]?).getD (t.array k r c)
          else t.array k r c)
    I3 I1 I2
    (fun i3 i1 i2 (st : tensor3 I1 I2 I3 T × Nat × Bool) =>
      if st.2.2 then some st
      else if st.2.1 = data.length then some (st.1, st.2.1, true)
      else (data[st.2.1]?).bind fun value =>
        (st.1.set_at i1 i2 i3 value).bind fun t =>
        some (t, st.2.1 + 1, false))
    (t, 0, false) ⟨by simp, by simp, fun k r c => by simp⟩
    (by
      intro i3 i1 i2 st h3 h1 h2 hst
      obtain ⟨hit, hstop, hst⟩ := hst
      have hq := hst ⟨i3, h3⟩ ⟨i1, h1⟩ ⟨i2, h2⟩
      simp only [Nat.lt_irrefl, if_false] at hq
      by_cases hlen : data.length < i3 * (I1 * I2) + i1 * I2 + i2
      · -- `return` was reached before
        have hs : st.2.2 = true := by rw [hstop]; exact decide_eq_true hlen
        simp only [hs, if_true]
        refine ⟨st, rfl, by rw [hit]; omega, by rw [hs]; symm; exact decide_eq_true (by omega),
          ?_⟩
        intro k r c
        rw [← row_offset_step_cases ⟨i1, h1⟩ r ⟨i2, h2⟩ c ⟨i3, h3⟩ k
          ((data[k.val * (I1 * I2) + r.val * I2 + c.val]?).getD (t.array k r c))
          (t.array k r c) (t.array k r c)
          (fun h => by
            obtain ⟨e3, e1, e2⟩ := h; subst e3 e1 e2
            rw [List.getElem?_eq_none (by simp only []; omega)]; rfl)]
        rw [hst k r c]
        by_cases hk : k = ⟨i3, h3⟩ ∧ r = ⟨i1, h1⟩ ∧ c = ⟨i2, h2⟩
        · obtain ⟨e3, e1, e2⟩ := hk; subst e3 e1 e2
          simp
        · rw [if_neg hk]
      · have hs : st.2.2 = false := by rw [hstop]; exact decide_eq_false hlen
        have hit2 : st.2.1 = i3 * (I1 * I2) + i1 * I2 + i2 := by rw [hit]; omega
        simp only [hs, Bool.false_eq_true, if_false]
        by_cases hend : st.2.1 = data.length
        · -- `it == end_`: return
          rw [if_pos hend]
          refine ⟨_, rfl, by simp only []; rw [hit]; omega,
            by simp only []; symm; exact decide_eq_true (by omega), ?_⟩
          intro k r c
          simp only []
          rw [← row_offset_step_cases ⟨i1, h1⟩ r ⟨i2, h2⟩ c ⟨i3, h3⟩ k
            ((data[k.val * (I1 * I2) + r.val * I2 + c.val]?).getD (t.array k r c))
            (t.array k r c) (t.array k r c)
            (fun h => by
              obtain ⟨e3, e1, e2⟩ := h; subst e3 e1 e2
              rw [List.getElem?_eq_none (by simp only []; omega)]; rfl)]
          rw [hst k r c]
          by_cases hk : k = ⟨i3, h3⟩ ∧ r = ⟨i1, h1⟩ ∧ c = ⟨i2, h2⟩
          · obtain ⟨e3, e1, e2⟩ := hk; subst e3 e1 e2
            simp
          · rw [if_neg hk]
        · rw [if_neg hend]
          have hlt : i3 * (I1 * I2) + i1 * I2 + i2 < data.length := by omega
          have hw := tensor3.set_at_of_fin st.1 ⟨i1, h1⟩ ⟨i2, h2⟩ ⟨i3, h3⟩
            (data[i3 * (I1 * I2) + i1 * I2 + i2])
          simp only [] at hw
          rw [hit2, List.getElem?_eq_getElem hlt, Option.some_bind, hw, Option.some_bind]
          refine ⟨_, rfl, by simp only []; omega,
            by simp only []; symm; exact decide_eq_false (by omega), ?_⟩
          intro k r c
          simp only [hst k r c]
          exact row_offset_step_cases ⟨i1, h1⟩ r ⟨i2, h2⟩ c ⟨i3, h3⟩ k _ _ _
            (fun h => by
              obtain ⟨e3, e1, e2⟩ := h; subst e3 e1 e2
              simp only []
              rw [List.getElem?_eq_getElem hlt]; rfl))
  rw [hst, Option.map_some']
  cases st with
  | mk s rest =>
    cases s with
    | mk arr =>
      simp only at hP
      show some (tensor3.mk arr) = _
      congr 2
      funext k r c
      exact (hP k r c).trans (if_pos (row_offset_lt r.isLt c.isLt k.isLt))

end row_major_lemmas

/-! ## Closed form of the tolerance comparison, and failing loops -/

section tolerance_lemmas

variable {T : Type} [LinearOrderedCommRing T] {I1 I2 I3 : Nat}

theorem tensor3.equals_loop_iff (a b : tensor3 I1 I2 I3 T) (tolerance : T) (n : Nat) :
    ∀ (i3 : Nat) (ok : Bool), I3 - i3 = n →
      (tensor3.equals_loop a b tolerance i3 ok = true
        ↔ ok = true ∧ ∀ k : Fin I3, i3 ≤ k.val →
            ∀ (r : Fin I1) (c : Fin I2), |a.array k r c - b.array k r c| ≤ tolerance) := by
  induction n with
  | zero =>
    intro i3 ok hn
    unfold tensor3.equals_loop
    rw [dif_neg (by omega)]
    constructor
    · intro h
      exact ⟨h, fun k hk => absurd k.isLt (by omega)⟩
    · intro h
      exact h.1
  | succ m ih =>
    intro i3 ok hn
    unfold tensor3.equals_loop
    by_cases hok : ok = true
    · have hlt : i3 < I3 := by omega
      rw [dif_pos ⟨hok, hlt⟩, ih (i3 + 1) _ (by omega)]
      simp only [matrix.equals, decide_eq_true_eq, hok, true_and]
      constructor
      · rintro ⟨h0, h1⟩ k hk
        by_cases hk0 : k.val = i3
        · have : k = ⟨i3, hlt⟩ := Fin.ext hk0
          rw [this]; exact h0
        · exact h1 k (by omega)
      · intro h
        exact ⟨h ⟨i3, hlt⟩ (Nat.le_refl _), fun k hk => h k (by omega)⟩
    · rw [dif_neg (fun h => hok h.1)]
      simp [hok]

theorem tensor3.equals_iff (a b : tensor3 I1 I2 I3 T) (tolerance : T) :
    a.equals b tolerance = true
      ↔ ∀ (i1 : Fin I1) (i2 : Fin I2) (i3 : Fin I3),
          |a.array i3 i1 i2 - b.array i3 i1 i2| ≤ tolerance := by
  unfold tensor3.equals
  rw [tensor3.equals_loop_iff a b tolerance (I3 - 0) 0 true rfl]
  constructor
  · intro h i1 i2 i3
    exact h.2 i3 (Nat.zero_le _) i1 i2
  · intro h
    exact ⟨rfl, fun k _ r c => h r c k⟩

end tolerance_lemmas

section failing_loops

variable {T : Type} [CommRing T] {I1 I2 I3 J1 J2 J3 : Nat}

theorem forLoop_none_of_step {σ : Type} (n k : Nat) (body : Nat → σ → Option σ) (s s1 : σ)
    (hk : k < n) (h1 : forLoop k body s = some s1) (h2 : body k s1 = none) :
    forLoop n body s = none := by
  induction n with
  | zero => exact absurd hk (Nat.not_lt_zero _)
  | succ m ih =>
    by_cases hkm : k = m
    · subst hkm
      simp [forLoop, h1, h2]
    · simp [forLoop, ih (by omega)]

theorem tensor3.multiply_lateral_bwd_none (uninit : (M N : Nat) → matrix M N T)
    (self : tensor3 I1 I2 I3 T) (other : tensor3 J1 J2 I3 T) (U : matrix I1 J1 T)
    (hJ : I2 < J2) :
    self.multiply_lateral_bwd uninit other U = none := by
  unfold tensor3.multiply_lateral_bwd
  obtain ⟨st, hst, _⟩ := forLoop_inv (fun _ _ => True) I2
    (fun i2 (st : tensor3 I1 I2 I3 T × matrix J1 I3 T × matrix I1 I3 T) =>
      (other.get_lateral_slice_bwd i2 st.2.1).bind fun slice =>
      let slice_new : matrix I1 I3 T := matrix.multiply U slice
      (st.1.set_lateral_slice_bwd i2 slice_new).bind fun self =>
      some (self, slice, slice_new))
    (self, uninit J1 I3, uninit I1 I3) trivial
    (by
      intro k st hk _
      simp only []
      rw [tensor3.get_lateral_slice_bwd_eq other k (by omega), Option.some_bind,
        tensor3.set_lateral_slice_bwd_eq st.1 k hk, Option.some_bind]
      exact ⟨_, rfl, trivial⟩)
  rw [forLoop_none_of_step J2 I2 _ _ st hJ hst (by
    simp only []
    rw [tensor3.get_lateral_slice_bwd_eq other I2 hJ, Option.some_bind]
    simp [tensor3.set_lateral_slice_bwd])]
  rfl

theorem tensor3.multiply_frontal_bwd_none (uninit : (M N : Nat) → matrix M N T)
    (self : tensor3 I1 I2 I3 T) (other : tensor3 I1 J2 J3 T) (U : matrix I2 J2 T)
    (hJ : I3 < J3) :
    self.multiply_frontal_bwd uninit other U = none := by
  unfold tensor3.multiply_frontal_bwd
  obtain ⟨st, hst, _⟩ := forLoop_inv (fun _ _ => True) I3
    (fun i3 (st : tensor3 I1 I2 I3 T × matrix J2 I1 T × matrix I2 I1 T) =>
      (other.get_frontal_slice_bwd i3 st.2.1).bind fun slice =>
      let slice_new : matrix I2 I1 T := matrix.multiply U slice
      (st.1.set_frontal_slice_bwd i3 slice_new).bind fun self =>
      some (self, slice, slice_new))
    (self, uninit J2 I1, uninit I2 I1) trivial
    (by
      intro k st hk _
      simp only []
      rw [tensor3.get_frontal_slice_bwd_eq other k (by omega), Option.some_bind,
        tensor3.set_frontal_slice_bwd_eq st.1 k hk, Option.some_bind]
      exact ⟨_, rfl, trivial⟩)
  rw [forLoop_none_of_step J3 I3 _ _ st hJ hst (by
    simp only []
    rw [tensor3.get_frontal_slice_bwd_eq other I3 hJ, Option.some_bind]
    simp [tensor3.set_frontal_slice_bwd])]
  rfl

theorem tensor3.multiply_horizontal_bwd_none (uninit : (M N : Nat) → matrix M N T)
    (self : tensor3 I1 I2 I3 T) (other : tensor3 J1 I2 J3 T) (U : matrix I3 J3 T)
    (hJ : I1 < J1) :
    self.multiply_horizontal_bwd uninit other U = none := by
  unfold tensor3.multiply_horizontal_bwd
  obtain ⟨st, hst, _⟩ := forLoop_inv (fun _ _ => True) I1
    (fun i1 (st : tensor3 I1 I2 I3 T × matrix J3 I2 T × matrix I3 I2 T) =>
      (other.get_horizontal_slice_bwd uninit i1 st.2.1).bind fun slice =>
      let slice_new : matrix I3 I2 T := matrix.multiply U slice
      (st.1.set_horizontal_slice_bwd i1 slice_new).bind fun self =>
      some (self, slice, slice_new))
    (self, uninit J3 I2, uninit I3 I2) trivial
    (by
      intro k st hk _
      simp only []
      rw [tensor3.get_horizontal_slice_bwd_eq uninit other k (by omega), Option.some_bind,
        tensor3.set_horizontal_slice_bwd_eq st.1 k hk, Option.some_bind]
      exact ⟨_, rfl, trivial⟩)
  rw [forLoop_none_of_step J1 I1 _ _ st hJ hst (by
    simp only []
    rw [tensor3.get_horizontal_slice_bwd_eq uninit other I1 hJ, Option.some_bind]
    simp [tensor3.set_horizontal_slice_bwd])]
  rfl

end failing_loops

/-! ## Closed forms of the tube accessors, the scaling, the copy branch of `set` and the
subtraction -/

section further_lemmas

variable {T : Type} {I1 I2 I3 : Nat}

theorem vector.at_in_range {M : Nat} (v : vector M T) (i : Nat) (h : i < M) :
    vector.at_ v i = some (v ⟨i, h⟩) := by
  simp [vector.at_, h]

theorem vector.set_at_in_range {M : Nat} (v : vector M T) (i : Nat) (h : i < M) (value : T) :
    vector.set_at v i value = some (fun j => if j.val = i then value else v j) := by
  simp [vector.set_at, h]

theorem tensor3.get_I3_vector_eq (t : tensor3 I1 I2 I3 T) (i1 i2 : Nat) (h1 : i1 < I1)
    (h2 : i2 < I2) (data : vector I3 T) :
    t.get_I3_vector i1 i2 data = some (fun k => t.array k ⟨i1, h1⟩ ⟨i2, h2⟩) := by
  unfold tensor3.get_I3_vector
  refine forLoop_eq_of_inv
    (fun n (d : vector I3 T) =>
      ∀ k, d k = if k.val < n then t.array k ⟨i1, h1⟩ ⟨i2, h2⟩ else data k)
    _ _ _ _ ?_ ?_ ?_
  · intro k; simp
  · intro n d hn hd
    refine ⟨_, by
      rw [tensor3.slice_of_lt t n hn, Option.some_bind, matrix.at_of_lt _ _ _ h1 h2,
        Option.some_bind, vector.set_at_in_range _ n hn], ?_⟩
    intro k
    by_cases hk : k.val = n
    · have : k = ⟨n, hn⟩ := Fin.ext hk
      subst this
      simp
    · have hlt : (k.val < n + 1) = (k.val < n) := by
        apply propext; omega
      simp only [hk, if_false, hd k, hlt]
  · intro d hP
    funext k
    rw [hP k]
    simp [k.isLt]

theorem tensor3.set_I3_vector_eq (t : tensor3 I1 I2 I3 T) (i1 i2 : Nat) (h1 : i1 < I1)
    (h2 : i2 < I2) (data : vector I3 T) :
    t.set_I3_vector i1 i2 data
      = some ⟨fun k r c => if r.val = i1 ∧ c.val = i2 then data k else t.array k r c⟩ := by
  unfold tensor3.set_I3_vector
  refine forLoop_eq_of_inv
    (fun n (s : tensor3 I1 I2 I3 T) =>
      ∀ k r c, s.array k r c
        = if k.val < n ∧ r.val = i1 ∧ c.val = i2 then data k else t.array k r c)
    _ _ _ _ ?_ ?_ ?_
  · intro k r c; simp
  · intro n s hn hs
    refine ⟨_, by
      rw [vector.at_in_range _ n hn, Option.some_bind, tensor3.slice_of_lt s n hn,
        Option.some_bind, matrix.set_at_of_lt _ _ _ h1 h2, Option.some_bind,
        tensor3.set_slice_of_lt s n hn], ?_⟩
    intro k r c
    by_cases hk : k.val = n
    · have : k = ⟨n, hn⟩ := Fin.ext hk
      subst this
      by_cases hrc : r.val = i1 ∧ c.val = i2
      · simp [hrc]
      · simp [hrc, hs]
    · have hlt : (k.val < n + 1) = (k.val < n) := by
        apply propext; omega
      simp only [hk, if_false, hs k r c, hlt]
  · intro s hP
    cases s with
    | mk arr =>
      congr 1
      funext k r c
      have := hP k r c
      simp only [k.isLt, true_and] at this
      exact this

theorem tensor3.operator_mul_assign_eq [Mul T] (t : tensor3 I1 I2 I3 T) (scalar : T) :
    t.operator_mul_assign scalar = some ⟨fun k r c => t.array k r c * scalar⟩ := by
  unfold tensor3.operator_mul_assign
  refine forLoop_eq_of_inv
    (fun n (s : tensor3 I1 I2 I3 T) =>
      ∀ k r c, s.array k r c
        = if k.val < n then t.array k r c * scalar else t.array k r c)
    _ _ _ _ ?_ ?_ ?_
  · intro k r c; simp
  · intro n s hn hs
    refine ⟨_, by
      rw [tensor3.slice_of_lt s n hn, Option.some_bind, tensor3.set_slice_of_lt s n hn], ?_⟩
    intro k r c
    by_cases hk : k.val = n
    · have : k = ⟨n, hn⟩ := Fin.ext hk
      subst this
      simp [matrix.operator_mul_assign, hs]
    · have hlt : (k.val < n + 1) = (k.val < n) := by
        apply propext; omega
      simp only [hk, if_false, hs k r c, hlt]
  · intro s hP
    cases s with
    | mk arr =>
      congr 1
      funext k r c
      exact (hP k r c).trans (if_pos k.isLt)

theorem tensor3.operator_sub_assign_eq [Sub T] (self other : tensor3 I1 I2 I3 T) :
    self.operator_sub_assign other
      = some ⟨fun k r c => self.array k r c - other.array k r c⟩ := by
  unfold tensor3.operator_sub_assign
  refine forLoop_eq_of_inv
    (fun n (s : tensor3 I1 I2 I3 T) =>
      ∀ k r c, s.array k r c
        = if k.val * (I1 * I2) + c.val * I1 + r.val < n then
            self.array k r c - other.array k r c
          else self.array k r c)
    _ _ _ _ ?_ ?_ ?_
  · intro k r c; simp
  · intro n s hn hs
    obtain ⟨q1, q2, q3, hq⟩ := offset_surjective hn
    subst hq
    simp only []
    rw [tensor3.iterator_read_offset, Option.some_bind, tensor3.iterator_read_offset,
      Option.some_bind, tensor3.iterator_write_offset]
    refine ⟨_, rfl, ?_⟩
    intro k r c
    have hq := hs q3 q1 q2
    rw [if_neg (Nat.lt_irrefl _)] at hq
    simp only [hs k r c, hq]
    exact offset_step_cases q1 r q2 c q3 k _ _ _
      (fun h => by obtain ⟨h3, h1, h2⟩ := h; subst h3 h1 h2; rfl)
  · intro s hP
    cases s with
    | mk arr =>
      congr 1
      funext k r c
      exact (hP k r c).trans (if_pos (offset_lt r.isLt c.isLt k.isLt))

theorem tensor3.set_copy_eq (t : tensor3 I1 I2 I3 T) (data : List T)
    (hlen : I1 * I2 * I3 ≤ data.length) :
    t.set data false
      = some ⟨fun k r c =>
          (data[k.val * (I1 * I2) + c.val * I1 + r.val]?).getD (t.array k r c)⟩ := by
  unfold tensor3.set
  rw [if_neg (by simp)]
  refine forLoop_eq_of_inv
    (fun n (s : tensor3 I1 I2 I3 T) =>
      ∀ k r c, s.array k r c
        = if k.val * (I1 * I2) + c.val * I1 + r.val < n then
            (data[k.val * (I1 * I2) + c.val * I1 + r.val]?).getD (t.array k r c)
          else t.array k r c)
    _ _ _ _ ?_ ?_ ?_
  · intro k r c; simp
  · intro n s hn hs
    obtain ⟨q1, q2, q3, hq⟩ := offset_surjective hn
    subst hq
    simp only []
    rw [List.getElem?_eq_getElem (by omega), Option.some_bind, tensor3.iterator_write_offset]
    refine ⟨_, rfl, ?_⟩
    intro k r c
    simp only [hs k r c]
    exact offset_step_cases q1 r q2 c q3 k _ _ _
      (fun h => by
        obtain ⟨h3, h1, h2⟩ := h; subst h3 h1 h2
        rw [List.getElem?_eq_getElem (by omega)]; rfl)
  · intro s hP
    cases s with
    | mk arr =>
      congr 1
      funext k r c
      exact (hP k r c).trans (if_pos (offset_lt r.isLt c.isLt k.isLt))

theorem tensor3.set_copy_none (t : tensor3 I1 I2 I3 T) (data : List T)
    (hlen : data.length < I1 * I2 * I3) :
    t.set data false = none := by
  unfold tensor3.set
  rw [if_neg (by simp)]
  obtain ⟨s, hs, _⟩ := forLoop_inv (fun _ _ => True) data.length
    (fun k (t : tensor3 I1 I2 I3 T) => (data[k]?).bind fun value => t.iterator_write k value)
    t trivial
    (by
      intro k s hk _
      obtain ⟨q1, q2, q3, hq⟩ := offset_surjective (Nat.lt_trans hk hlen)
      subst hq
      simp only []
      rw [List.getElem?_eq_getElem hk, Option.some_bind, tensor3.iterator_write_offset]
      exact ⟨_, rfl, trivial⟩)
  exact forLoop_none_of_step _ data.length _ _ s hlen hs (by
    show (data[data.length]?).bind _ = none
    rw [List.getElem?_eq_none (Nat.le_refl _)]
    rfl)

end further_lemmas

/-! ## Closed forms of the resizing constructor and of the threshold -/

section resize_lemmas

variable {T : Type} {I1 I2 I3 J1 J2 J3 : Nat}

theorem lt_min_ite {i J I : Nat} : i < (if J < I then J else I) ↔ i < J ∧ i < I := by
  split <;> omega

theorem tensor3.construct_from_eq [Zero T] (uninit : (M N : Nat) → matrix M N T)
    (source_ : tensor3 J1 J2 J3 T) :
    (tensor3.construct_from uninit source_ : Option (tensor3 I1 I2 I3 T))
      = some ⟨fun k r c =>
          if h : r.val < J1 ∧ c.val < J2 ∧ k.val < J3 then
            source_.array ⟨k.val, h.2.2⟩ ⟨r.val, h.1⟩ ⟨c.val, h.2.1⟩
          else 0⟩ := by
  unfold tensor3.construct_from
  simp only []
  unfold tensor3.zero
  rw [tensor3.fill_eq, Option.some_bind]
  obtain ⟨s, hs, hP⟩ := triple_loop_inv
    (fun n (s : tensor3 I1 I2 I3 T) =>
      ∀ (k : Fin I3) (r : Fin I1) (c : Fin I2), s.array k r c
        = if h : (r.val < J1 ∧ c.val < J2 ∧ k.val < J3) ∧
            r.val * ((if J2 < I2 then J2 else I2) * (if J3 < I3 then J3 else I3))
              + c.val * (if J3 < I3 then J3 else I3) + k.val < n then
            source_.array ⟨k.val, h.1.2.2⟩ ⟨r.val, h.1.1⟩ ⟨c.val, h.1.2.1⟩
          else 0)
    (if J1 < I1 then J1 else I1) (if J2 < I2 then J2 else I2) (if J3 < I3 then J3 else I3)
    (fun i j k (self : tensor3 I1 I2 I3 T) =>
      (source_.operator_call i j k).bind fun value => self.set_at i j k value)
    (tensor3.mk fun _ _ _ => (0 : T))
    (by intro k r c; simp)
    (by
      intro i j k s hi hj hk hs
      obtain ⟨hiJ, hiI⟩ := lt_min_ite.mp hi
      obtain ⟨hjJ, hjI⟩ := lt_min_ite.mp hj
      obtain ⟨hkJ, hkI⟩ := lt_min_ite.mp hk
      have hr := tensor3.at_of_fin source_ ⟨i, hiJ⟩ ⟨j, hjJ⟩ ⟨k, hkJ⟩
      have hw := tensor3.set_at_of_fin s ⟨i, hiI⟩ ⟨j, hjI⟩ ⟨k, hkI⟩
        (source_.array ⟨k, hkJ⟩ ⟨i, hiJ⟩ ⟨j, hjJ⟩)
      simp only [] at hr hw ⊢
      unfold tensor3.operator_call
      rw [hr, Option.some_bind, hw]
      refine ⟨_, rfl, ?_⟩
      intro k2 r2 c2
      simp only []
      by_cases hq : k2 = ⟨k, hkI⟩ ∧ r2 = ⟨i, hiI⟩ ∧ c2 = ⟨j, hjI⟩
      · obtain ⟨e3, e1, e2⟩ := hq
        subst e3 e1 e2
        rw [if_pos ⟨rfl, rfl, rfl⟩, dif_pos ⟨⟨hiJ, hjJ, hkJ⟩, Nat.lt_succ_self _⟩]
      · rw [if_neg hq, hs k2 r2 c2]
        by_cases hc : (r2.val < J1 ∧ c2.val < J2 ∧ k2.val < J3) ∧
            r2.val * ((if J2 < I2 then J2 else I2) * (if J3 < I3 then J3 else I3))
              + c2.val * (if J3 < I3 then J3 else I3) + k2.val
            < i * ((if J2 < I2 then J2 else I2) * (if J3 < I3 then J3 else I3))
              + j * (if J3 < I3 then J3 else I3) + k
        · rw [dif_pos hc, dif_pos ⟨hc.1, Nat.lt_succ_of_lt hc.2⟩]
        · rw [dif_neg hc, dif_neg]
          rintro ⟨hbox, hlt⟩
          have hne : r2.val * ((if J2 < I2 then J2 else I2) * (if J3 < I3 then J3 else I3))
              + c2.val * (if J3 < I3 then J3 else I3) + k2.val
              ≠ i * ((if J2 < I2 then J2 else I2) * (if J3 < I3 then J3 else I3))
              + j * (if J3 < I3 then J3 else I3) + k := by
            intro he
            obtain ⟨e1, e2, e3⟩ := row_offset_unique
              (lt_min_ite.mpr ⟨hbox.2.1, c2.isLt⟩) hj
              (lt_min_ite.mpr ⟨hbox.2.2, k2.isLt⟩) hk he
            exact hq ⟨Fin.ext e2, Fin.ext e3, Fin.ext e1⟩
          exact hc ⟨hbox, by omega⟩)
  rw [hs]
  cases s with
  | mk arr =>
    congr 2
    funext k r c
    refine (hP k r c).trans ?_
    by_cases hbox : r.val < J1 ∧ c.val < J2 ∧ k.val < J3
    · rw [dif_pos hbox, dif_pos ⟨hbox, row_offset_lt
        (lt_min_ite.mpr ⟨hbox.2.1, c.isLt⟩) (lt_min_ite.mpr ⟨hbox.2.2, k.isLt⟩)
        (lt_min_ite.mpr ⟨hbox.1, r.isLt⟩)⟩]
    · rw [dif_neg hbox, dif_neg (fun h => hbox h.1)]

theorem tensor3.range_threshold_eq [LinearOrder T] (self other_ : tensor3 I1 I2 I3 T)
    (start_value end_value : T) :
    self.range_threshold other_ start_value end_value
      = some ⟨fun k r c =>
          if start_value ≤ self.array k r c ∧ self.array k r c ≤ end_value then
            self.array k r c
          else other_.array k r c⟩ := by
  unfold tensor3.range_threshold
  obtain ⟨s, hs, hP⟩ := triple_loop_inv
    (fun n (s : tensor3 I1 I2 I3 T) =>
      ∀ (k : Fin I3) (r : Fin I1) (c : Fin I2), s.array k r c
        = if k.val * (I1 * I2) + r.val * I2 + c.val < n then
            (if start_value ≤ self.array k r c ∧ self.array k r c ≤ end_value then
              self.array k r c
            else other_.array k r c)
          else other_.array k r c)
    I3 I1 I2
    (fun i3 i1 i2 (other_ : tensor3 I1 I2 I3 T) =>
      (self.at_ i1 i2 i3).bind fun value =>
      if start_value ≤ value ∧ value ≤ end_value then other_.set_at i1 i2 i3 value
      else some other_)
    other_
    (by intro k r c; simp)
    (by
      intro i3 i1 i2 s h3 h1 h2 hs
      have hr := tensor3.at_of_fin self ⟨i1, h1⟩ ⟨i2, h2⟩ ⟨i3, h3⟩
      have hw := tensor3.set_at_of_fin s ⟨i1, h1⟩ ⟨i2, h2⟩ ⟨i3, h3⟩
        (self.array ⟨i3, h3⟩ ⟨i1, h1⟩ ⟨i2, h2⟩)
      have hq := hs ⟨i3, h3⟩ ⟨i1, h1⟩ ⟨i2, h2⟩
      simp only [Nat.lt_irrefl, if_false] at hr hw hq ⊢
      rw [hr, Option.some_bind]
      by_cases hc : start_value ≤ self.array ⟨i3, h3⟩ ⟨i1, h1⟩ ⟨i2, h2⟩ ∧
          self.array ⟨i3, h3⟩ ⟨i1, h1⟩ ⟨i2, h2⟩ ≤ end_value
      · rw [if_pos hc, hw]
        refine ⟨_, rfl, ?_⟩
        intro k r c
        simp only [hs k r c]
        exact row_offset_step_cases ⟨i1, h1⟩ r ⟨i2, h2⟩ c ⟨i3, h3⟩ k _ _ _
          (fun h => by
            obtain ⟨e3, e1, e2⟩ := h; subst e3 e1 e2
            rw [if_pos hc])
      · rw [if_neg hc]
        refine ⟨_, rfl, ?_⟩
        intro k r c
        rw [← row_offset_step_cases ⟨i1, h1⟩ r ⟨i2, h2⟩ c ⟨i3, h3⟩ k
          (if start_value ≤ self.array k r c ∧ self.array k r c ≤ end_value then
              self.array k r c
            else other_.array k r c)
          (other_.array k r c) (other_.array k r c)
          (fun h => by
            obtain ⟨e3, e1, e2⟩ := h; subst e3 e1 e2
            rw [if_neg hc])]
        by_cases hk : k = ⟨i3, h3⟩ ∧ r = ⟨i1, h1⟩ ∧ c = ⟨i2, h2⟩
        · obtain ⟨e3, e1, e2⟩ := hk; subst e3 e1 e2
          rw [if_pos ⟨rfl, rfl, rfl⟩]
          exact hq
        · rw [if_neg hk]
          exact hs k r c)
  rw [hs]
  cases s with
  | mk arr =>
    congr 2
    funext k r c
    exact (hP k r c).trans (if_pos (row_offset_lt r.isLt c.isLt k.isLt))

theorem block_index_surjective {B W c : Nat} (h : c < B * W) :
    ∃ (b : Fin B) (w : Fin W), b.val * W + w.val = c := by
  have hW : 0 < W := by
    rcases Nat.eq_zero_or_pos W with h0 | h0
    · simp [h0] at h
    · exact h0
  refine ⟨⟨c / W, Nat.div_lt_of_lt_mul (by rwa [Nat.mul_comm] at h)⟩,
    ⟨c % W, Nat.mod_lt _ hW⟩, ?_⟩
  show c / W * W + c % W = c
  rw [Nat.mul_comm]
  exact Nat.div_add_mod c W

end resize_lemmas

/-! ## The mode products and the reconstruction -/

section product_claims

variable {T : Type} [CommRing T] {I1 I2 I3 J1 J2 J3 : Nat}

/-- C1: `full_tensor3_matrix_multiplication( G, U1, U2, U3 )` on a destination of shape
`I1 x I2 x I3` returns, and afterwards element `( i1, i2, i3 )` is the sum over `j1 < J1`,
`j2 < J2`, `j3 < J3` of `G( j1, j2, j3 ) * U1( i1, j1 ) * U2( i2, j2 ) * U3( i3, j3 )`;
neither the prior contents of the destination nor those of fresh storage occur in the value. -/
theorem C1_full_tensor3_matrix_multiplication (uninit : (M N : Nat) → matrix M N T)
    (self : tensor3 I1 I2 I3 T) (G : tensor3 J1 J2 J3 T)
    (U1 : matrix I1 J1 T) (U2 : matrix I2 J2 T) (U3 : matrix I3 J3 T) :
    ∃ r, self.full_tensor3_matrix_multiplication uninit G U1 U2 U3 = some r ∧
      ∀ (i1 : Fin I1) (i2 : Fin I2) (i3 : Fin I3),
        r.at_ i1 i2 i3 = some (∑ j1 : Fin J1, ∑ j2 : Fin J2, ∑ j3 : Fin J3,
          G.array j3 j1 j2 * U1 i1 j1 * U2 i2 j2 * U3 i3 j3) := by
  refine ⟨_, tensor3.full_tensor3_matrix_multiplication_eq uninit self G U1 U2 U3, ?_⟩
  intro i1 i2 i3
  rw [tensor3.at_of_fin]
  congr 1
  simp only [Finset.mul_sum]
  calc (∑ j3 : Fin J3, ∑ j2 : Fin J2, ∑ j1 : Fin J1,
          U3 i3 j3 * (U2 i2 j2 * (U1 i1 j1 * G.array j3 j1 j2)))
      = ∑ j3 : Fin J3, ∑ j2 : Fin J2, ∑ j1 : Fin J1,
          G.array j3 j1 j2 * U1 i1 j1 * U2 i2 j2 * U3 i3 j3 := by
        refine Finset.sum_congr rfl fun j3 _ => ?_
        refine Finset.sum_congr rfl fun j2 _ => ?_
        refine Finset.sum_congr rfl fun j1 _ => ?_
        ring
    _ = ∑ j3 : Fin J3, ∑ j1 : Fin J1, ∑ j2 : Fin J2,
          G.array j3 j1 j2 * U1 i1 j1 * U2 i2 j2 * U3 i3 j3 :=
        Finset.sum_congr rfl fun j3 _ => Finset.sum_comm
    _ = ∑ j1 : Fin J1, ∑ j3 : Fin J3, ∑ j2 : Fin J2,
          G.array j3 j1 j2 * U1 i1 j1 * U2 i2 j2 * U3 i3 j3 := Finset.sum_comm
    _ = ∑ j1 : Fin J1, ∑ j2 : Fin J2, ∑ j3 : Fin J3,
          G.array j3 j1 j2 * U1 i1 j1 * U2 i2 j2 * U3 i3 j3 :=
        Finset.sum_congr rfl fun j1 _ => Finset.sum_comm

/-- C2: with the three factor matrices equal to identity matrices the reconstruction returns
and leaves the destination equal to `G` under `operator==`. -/
theorem C2_identity_reconstruction [DecidableEq T] (uninit : (M N : Nat) → matrix M N T)
    (self G : tensor3 I1 I2 I3 T) :
    ∃ r, self.full_tensor3_matrix_multiplication uninit G
        matrix.identity matrix.identity matrix.identity = some r ∧
      r.operator_eq G = true := by
  refine ⟨_, tensor3.full_tensor3_matrix_multiplication_eq uninit self G _ _ _, ?_⟩
  rw [tensor3.operator_eq_iff]
  cases G with
  | mk g =>
    congr 1
    funext k r c
    simp only [sum_identity_mul]

/-- C3: `multiply_lateral_bwd( X, U )` on a destination of shape `I1 x J2 x J3` returns and
sets element `( i1, j2, j3 )` to the sum over `j1 < J1` of `U( i1, j1 ) * X( j1, j2, j3 )`; the
backward lateral slice of the result at each mode-2 index is `U` times the backward lateral
slice of `X` at that index. -/
theorem C3_multiply_lateral_bwd (uninit : (M N : Nat) → matrix M N T)
    (self : tensor3 I1 J2 J3 T) (X : tensor3 J1 J2 J3 T) (U : matrix I1 J1 T) :
    ∃ r, self.multiply_lateral_bwd uninit X U = some r ∧
      (∀ (i1 : Fin I1) (j2 : Fin J2) (j3 : Fin J3),
        r.at_ i1 j2 j3 = some (∑ j1 : Fin J1, U i1 j1 * X.array j3 j1 j2)) ∧
      (∀ (j2 : Fin J2) (d : matrix I1 J3 T) (e : matrix J1 J3 T),
        r.get_lateral_slice_bwd j2 d
          = (X.get_lateral_slice_bwd j2 e).map (matrix.multiply U)) := by
  refine ⟨_, tensor3.multiply_lateral_bwd_eq uninit self X U (Nat.le_refl _), ?_, ?_⟩
  · intro i1 j2 j3
    rw [tensor3.at_of_fin]
    simp only [Fin.is_lt, dite_true, Fin.eta]
  · intro j2 d e
    rw [tensor3.get_lateral_slice_bwd_eq _ j2 j2.isLt, tensor3.get_lateral_slice_bwd_eq _ j2 j2.isLt,
      Option.map_some']
    simp only [Fin.is_lt, dite_true, Fin.eta]
    rfl

/-- C4: `multiply_frontal_bwd( X, U )` on a destination of shape `J1 x I2 x J3` returns and
sets element `( j1, i2, j3 )` to the sum over `j2 < J2` of `U( i2, j2 ) * X( j1, j2, j3 )`. -/
theorem C4_multiply_frontal_bwd (uninit : (M N : Nat) → matrix M N T)
    (self : tensor3 J1 I2 J3 T) (X : tensor3 J1 J2 J3 T) (U : matrix I2 J2 T) :
    ∃ r, self.multiply_frontal_bwd uninit X U = some r ∧
      ∀ (j1 : Fin J1) (i2 : Fin I2) (j3 : Fin J3),
        r.at_ j1 i2 j3 = some (∑ j2 : Fin J2, U i2 j2 * X.array j3 j1 j2) := by
  refine ⟨_, tensor3.multiply_frontal_bwd_eq uninit self X U (Nat.le_refl _), ?_⟩
  intro j1 i2 j3
  rw [tensor3.at_of_fin]
  simp only [Fin.is_lt, dite_true, Fin.eta]

/-- C5: `multiply_horizontal_bwd( X, U )` on a destination of shape `J1 x J2 x I3` returns and
sets element `( j1, j2, i3 )` to the sum over `j3 < J3` of `U( i3, j3 ) * X( j1, j2, j3 )`. -/
theorem C5_multiply_horizontal_bwd (uninit : (M N : Nat) → matrix M N T)
    (self : tensor3 J1 J2 I3 T) (X : tensor3 J1 J2 J3 T) (U : matrix I3 J3 T) :
    ∃ r, self.multiply_horizontal_bwd uninit X U = some r ∧
      ∀ (j1 : Fin J1) (j2 : Fin J2) (i3 : Fin I3),
        r.at_ j1 j2 i3 = some (∑ j3 : Fin J3, U i3 j3 * X.array j3 j1 j2) := by
  refine ⟨_, tensor3.multiply_horizontal_bwd_eq uninit self X U (Nat.le_refl _), ?_⟩
  intro j1 j2 i3
  rw [tensor3.at_of_fin]
  simp only [Fin.is_lt, dite_true, Fin.eta]

end product_claims

/-! ## The unfoldings -/

section unfolding_claims

variable {T : Type} {I1 I2 I3 : Nat}

/-- C6: `lateral_matricization_bwd` returns the `I1 x (I2 * I3)` matrix `M` with
`M( i1, i2 * I3 + i3 ) = t( i1, i2, i3 )`; the columns `i * I3 + col` are the columns `col` of
the backward lateral slice at `i`; and the columns written are `0, 1, ..., I2 * I3 - 1`, each
once. -/
theorem C6_lateral_matricization_bwd (uninit : (M N : Nat) → matrix M N T)
    (t : tensor3 I1 I2 I3 T) (matricization : matrix I1 (I2 * I3) T) :
    ∃ m, t.lateral_matricization_bwd uninit matricization = some m ∧
      (∀ (i1 : Fin I1) (i2 : Fin I2) (i3 : Fin I3),
        matrix.at_ m i1 (i2 * I3 + i3) = some (t.array i3 i1 i2)) ∧
      (∀ (i : Fin I2) (col : Fin I3) (d : matrix I1 I3 T),
        matrix.get_column m (i * I3 + col)
          = (t.get_lateral_slice_bwd i d).bind fun s => matrix.get_column s col) ∧
      (t.lateral_matricization_bwd_written uninit matricization).map (fun st => st.2.2)
        = some (List.range (I2 * I3)) := by
  obtain ⟨st, hst, h1, h2⟩ := t.lateral_matricization_bwd_written_spec uninit matricization
  refine ⟨st.1, by rw [tensor3.lateral_matricization_bwd, hst, Option.map_some'], ?_, ?_,
    by rw [hst, Option.map_some', h2]⟩
  · intro i1 i2 i3
    have hlt : i2.val * I3 + i3.val < I2 * I3 := block_index_lt i2.isLt i3.isLt
    rw [matrix.at_of_lt st.1 _ _ i1.isLt hlt]
    exact congrArg some (h1 i1 i2 i3 hlt)
  · intro i col d
    have hlt : i.val * I3 + col.val < I2 * I3 := block_index_lt i.isLt col.isLt
    rw [matrix.get_column_of_lt st.1 _ hlt, tensor3.get_lateral_slice_bwd_eq t i i.isLt,
      Option.some_bind, matrix.get_column_of_lt _ col col.isLt]
    congr 1
    funext r
    exact h1 r i col hlt

/-- C7: `frontal_matricization_bwd` returns the `I2 x (I1 * I3)` matrix `M` with
`M( i2, i3 * I1 + i1 ) = t( i1, i2, i3 )`, and the columns written are
`0, 1, ..., I1 * I3 - 1`, each once. -/
theorem C7_frontal_matricization_bwd (uninit : (M N : Nat) → matrix M N T)
    (t : tensor3 I1 I2 I3 T) (matricization : matrix I2 (I1 * I3) T) :
    ∃ m, t.frontal_matricization_bwd uninit matricization = some m ∧
      (∀ (i1 : Fin I1) (i2 : Fin I2) (i3 : Fin I3),
        matrix.at_ m i2 (i3 * I1 + i1) = some (t.array i3 i1 i2)) ∧
      (t.frontal_matricization_bwd_written uninit matricization).map (fun st => st.2.2)
        = some (List.range (I1 * I3)) := by
  obtain ⟨st, hst, h1, h2⟩ := t.frontal_matricization_bwd_written_spec uninit matricization
  refine ⟨st.1, by rw [tensor3.frontal_matricization_bwd, hst, Option.map_some'], ?_,
    by rw [hst, Option.map_some', h2]⟩
  intro i1 i2 i3
  have hlt : i3.val * I1 + i1.val < I1 * I3 :=
    Nat.mul_comm I3 I1 ▸ block_index_lt i3.isLt i1.isLt
  rw [matrix.at_of_lt st.1 _ _ i2.isLt hlt]
  exact congrArg some (h1 i2 i3 i1 hlt)

/-- C8: `horizontal_matricization_bwd` returns the `I3 x (I1 * I2)` matrix `M` with
`M( i3, i1 * I2 + i2 ) = t( i1, i2, i3 )`, and the columns written are
`0, 1, ..., I1 * I2 - 1`, each once. -/
theorem C8_horizontal_matricization_bwd (uninit : (M N : Nat) → matrix M N T)
    (t : tensor3 I1 I2 I3 T) (matricization : matrix I3 (I1 * I2) T) :
    ∃ m, t.horizontal_matricization_bwd uninit matricization = some m ∧
      (∀ (i1 : Fin I1) (i2 : Fin I2) (i3 : Fin I3),
        matrix.at_ m i3 (i1 * I2 + i2) = some (t.array i3 i1 i2)) ∧
      (t.horizontal_matricization_bwd_written uninit matricization).map (fun st => st.2.2)
        = some (List.range (I1 * I2)) := by
  obtain ⟨st, hst, h1, h2⟩ := t.horizontal_matricization_bwd_written_spec uninit matricization
  refine ⟨st.1, by rw [tensor3.horizontal_matricization_bwd, hst, Option.map_some'], ?_,
    by rw [hst, Option.map_some', h2]⟩
  intro i1 i2 i3
  have hlt : i1.val * I2 + i2.val < I1 * I2 := block_index_lt i1.isLt i2.isLt
  rw [matrix.at_of_lt st.1 _ _ i3.isLt hlt]
  exact congrArg some (h1 i3 i1 i2 hlt)

/-- C9, as stated, fails: for the `2 x 2 x 2` tensor holding `0 .. 7`, column `0` of the
frontal unfolding is `( 0, 1 )` while column `0` of the forward frontal slice `0` is
`( 0, 2 )`. -/
theorem C9_frontal_column_counterexample :
    (((increasing_2x2x2.frontal_matricization_bwd fresh_zeros (fresh_zeros 2 (2 * 2))).bind
        fun m => (matrix.get_column m 0).map fun v => [v 0, v 1]) = some [0, 1] ∧
      ((increasing_2x2x2.get_frontal_slice_fwd 0 (fresh_zeros 2 2)).bind
        fun s => (matrix.get_column s 0).map fun v => [v 0, v 1]) = some [0, 2]) ∧
    ((increasing_2x2x2.frontal_matricization_bwd fresh_zeros (fresh_zeros 2 (2 * 2))).bind
        fun m => matrix.get_column m 0)
      ≠ ((increasing_2x2x2.get_frontal_slice_fwd 0 (fresh_zeros 2 2)).bind
        fun s => matrix.get_column s 0) := by
  decide

/-- C9, amended: the column block of each unfolding for index `i` is, in order, the columns of
the backward-oriented slice at `i`.  For the frontal unfolding, column `i3 * I1 + c` is column
`c` of `get_frontal_slice_bwd( i3 )`, that is row `c` of the forward frontal slice
`get_frontal_slice_fwd( i3 )`; likewise the horizontal unfolding holds the rows of the forward
horizontal slice. -/
theorem C9_matricization_blocks_amended (uninit : (M N : Nat) → matrix M N T)
    (t : tensor3 I1 I2 I3 T) :
    (∀ (m0 : matrix I2 (I1 * I3) T), ∃ m, t.frontal_matricization_bwd uninit m0 = some m ∧
      ∀ (i3 : Fin I3) (c : Fin I1) (d : matrix I2 I1 T) (e : matrix I1 I2 T),
        matrix.get_column m (i3 * I1 + c)
            = ((t.get_frontal_slice_bwd i3 d).bind fun s => matrix.get_column s c) ∧
        matrix.get_column m (i3 * I1 + c)
            = ((t.get_frontal_slice_fwd i3 e).bind fun s => matrix.get_row s c)) ∧
    (∀ (m0 : matrix I1 (I2 * I3) T), ∃ m, t.lateral_matricization_bwd uninit m0 = some m ∧
      ∀ (i2 : Fin I2) (c : Fin I3) (d : matrix I1 I3 T),
        matrix.get_column m (i2 * I3 + c)
            = ((t.get_lateral_slice_bwd i2 d).bind fun s => matrix.get_column s c)) ∧
    (∀ (m0 : matrix I3 (I1 * I2) T), ∃ m, t.horizontal_matricization_bwd uninit m0 = some m ∧
      ∀ (i1 : Fin I1) (c : Fin I2) (d : matrix I3 I2 T) (e : matrix I2 I3 T),
        matrix.get_column m (i1 * I2 + c)
            = ((t.get_horizontal_slice_bwd uninit i1 d).bind fun s => matrix.get_column s c) ∧
        matrix.get_column m (i1 * I2 + c)
            = ((t.get_horizontal_slice_fwd i1 e).bind fun s => matrix.get_row s c)) := by
  refine ⟨?_, ?_, ?_⟩
  · intro m0
    obtain ⟨st, hst, h1, _⟩ := t.frontal_matricization_bwd_written_spec uninit m0
    refine ⟨st.1, by rw [tensor3.frontal_matricization_bwd, hst, Option.map_some'], ?_⟩
    intro i3 c d e
    have hlt : i3.val * I1 + c.val < I1 * I3 :=
      Nat.mul_comm I3 I1 ▸ block_index_lt i3.isLt c.isLt
    rw [matrix.get_column_of_lt st.1 _ hlt, tensor3.get_frontal_slice_bwd_eq t i3 i3.isLt,
      tensor3.get_frontal_slice_fwd_eq t i3 i3.isLt, Option.some_bind, Option.some_bind,
      matrix.get_column_of_lt _ c c.isLt, matrix.get_row_of_lt _ c c.isLt]
    have key : (fun r => st.1 r ⟨i3.val * I1 + c.val, hlt⟩) = fun r => t.array i3 c r :=
      funext fun r => h1 r i3 c hlt
    exact ⟨congrArg some key, congrArg some key⟩
  · intro m0
    obtain ⟨st, hst, h1, _⟩ := t.lateral_matricization_bwd_written_spec uninit m0
    refine ⟨st.1, by rw [tensor3.lateral_matricization_bwd, hst, Option.map_some'], ?_⟩
    intro i2 c d
    have hlt : i2.val * I3 + c.val < I2 * I3 := block_index_lt i2.isLt c.isLt
    rw [matrix.get_column_of_lt st.1 _ hlt, tensor3.get_lateral_slice_bwd_eq t i2 i2.isLt,
      Option.some_bind, matrix.get_column_of_lt _ c c.isLt]
    exact congrArg some (funext fun r => h1 r i2 c hlt)
  · intro m0
    obtain ⟨st, hst, h1, _⟩ := t.horizontal_matricization_bwd_written_spec uninit m0
    refine ⟨st.1, by rw [tensor3.horizontal_matricization_bwd, hst, Option.map_some'], ?_⟩
    intro i1 c d e
    have hlt : i1.val * I2 + c.val < I1 * I2 := block_index_lt i1.isLt c.isLt
    rw [matrix.get_column_of_lt st.1 _ hlt,
      tensor3.get_horizontal_slice_bwd_eq uninit t i1 i1.isLt,
      tensor3.get_horizontal_slice_fwd_eq t i1 i1.isLt, Option.some_bind, Option.some_bind,
      matrix.get_column_of_lt _ c c.isLt, matrix.get_row_of_lt _ c c.isLt]
    have key : (fun r => st.1 r ⟨i1.val * I2 + c.val, hlt⟩) = fun r => t.array r i1 c :=
      funext fun r => h1 r i1 c hlt
    exact ⟨congrArg some key, congrArg some key⟩

end unfolding_claims

/-! ## The two orientations of a slice -/

section orientation_claims

variable {T : Type} {I1 I2 I3 : Nat}

/-- C10: for each slice kind, setting the backward-oriented slice to `D` and then getting the
forward-oriented slice at the same index returns `transpose( D )`, and setting the
forward-oriented slice to `D` and then getting the backward-oriented one returns
`transpose( D )`: frontal at `i3 < I3`, lateral at `i2 < I2`, horizontal at `i1 < I1`. -/
theorem C10_slice_orientations (uninit : (M N : Nat) → matrix M N T)
    (t : tensor3 I1 I2 I3 T) :
    (∀ (i3 : Fin I3) (D : matrix I2 I1 T) (d : matrix I1 I2 T),
      ((t.set_frontal_slice_bwd i3 D).bind fun u => u.get_frontal_slice_fwd i3 d)
        = some (matrix.transpose D)) ∧
    (∀ (i3 : Fin I3) (D : matrix I1 I2 T) (d : matrix I2 I1 T),
      ((t.set_frontal_slice_fwd i3 D).bind fun u => u.get_frontal_slice_bwd i3 d)
        = some (matrix.transpose D)) ∧
    (∀ (i2 : Fin I2) (D : matrix I1 I3 T) (d : matrix I3 I1 T),
      ((t.set_lateral_slice_bwd i2 D).bind fun u => u.get_lateral_slice_fwd uninit i2 d)
        = some (matrix.transpose D)) ∧
    (∀ (i2 : Fin I2) (D : matrix I3 I1 T) (d : matrix I1 I3 T),
      ((t.set_lateral_slice_fwd i2 D).bind fun u => u.get_lateral_slice_bwd i2 d)
        = some (matrix.transpose D)) ∧
    (∀ (i1 : Fin I1) (D : matrix I3 I2 T) (d : matrix I2 I3 T),
      ((t.set_horizontal_slice_bwd i1 D).bind fun u => u.get_horizontal_slice_fwd i1 d)
        = some (matrix.transpose D)) ∧
    (∀ (i1 : Fin I1) (D : matrix I2 I3 T) (d : matrix I3 I2 T),
      ((t.set_horizontal_slice_fwd i1 D).bind fun u =>
          u.get_horizontal_slice_bwd uninit i1 d)
        = some (matrix.transpose D)) := by
  refine ⟨?_, ?_, ?_, ?_, ?_, ?_⟩
  · intro i3 D d
    rw [tensor3.set_frontal_slice_bwd_eq t i3 i3.isLt, Option.some_bind,
      tensor3.get_frontal_slice_fwd_eq _ i3 i3.isLt]
    congr 1
    funext r c
    simp [matrix.transpose]
  · intro i3 D d
    rw [tensor3.set_frontal_slice_fwd_eq t i3 i3.isLt, Option.some_bind,
      tensor3.get_frontal_slice_bwd_eq _ i3 i3.isLt]
    congr 1
    funext r c
    simp [matrix.transpose]
  · intro i2 D d
    rw [tensor3.set_lateral_slice_bwd_eq t i2 i2.isLt, Option.some_bind,
      tensor3.get_lateral_slice_fwd_eq uninit _ i2 i2.isLt]
    congr 1
    funext r c
    simp [matrix.transpose]
  · intro i2 D d
    rw [tensor3.set_lateral_slice_fwd_eq t i2 i2.isLt, Option.some_bind,
      tensor3.get_lateral_slice_bwd_eq _ i2 i2.isLt]
    congr 1
    funext r c
    simp [matrix.transpose]
  · intro i1 D d
    rw [tensor3.set_horizontal_slice_bwd_eq t i1 i1.isLt, Option.some_bind,
      tensor3.get_horizontal_slice_fwd_eq _ i1 i1.isLt]
    congr 1
    funext r c
    simp [matrix.transpose]
  · intro i1 D d
    rw [tensor3.set_horizontal_slice_fwd_eq t i1 i1.isLt, Option.some_bind,
      tensor3.get_horizontal_slice_bwd_eq uninit _ i1 i1.isLt]
    congr 1
    funext r c
    simp [matrix.transpose]

end orientation_claims

/-! ## Slice shapes, element access and linearisation -/

section access_claims

variable {T : Type} {I1 I2 I3 : Nat}

/-- C11, as stated, fails: for the `1 x 1 x 2` tensor the slice returned by
`get_lateral_slice_bwd( 0 )` has the element `( 0, 1 )` and no element `( 1, 0 )`, so it has
`I1 = 1` row and `I3 = 2` columns; the slice of `get_lateral_slice_fwd( 0 )` has the element
`( 1, 0 )` and no element `( 0, 1 )`. -/
theorem C11_lateral_shape_counterexample :
    ((tube_1x1x2.get_lateral_slice_bwd 0 (fresh_zeros 1 2)).bind
        fun s => matrix.at_ s 0 1) = some 11 ∧
    ((tube_1x1x2.get_lateral_slice_bwd 0 (fresh_zeros 1 2)).bind
        fun s => matrix.at_ s 1 0) = none ∧
    ((tube_1x1x2.get_lateral_slice_fwd fresh_zeros 0 (fresh_zeros 2 1)).bind
        fun s => matrix.at_ s 1 0) = some 11 ∧
    ((tube_1x1x2.get_lateral_slice_fwd fresh_zeros 0 (fresh_zeros 2 1)).bind
        fun s => matrix.at_ s 0 1) = none := by
  decide

/-- C11, amended: for `i2 < I2` the slice returned by `get_lateral_slice_bwd` is an `I1 x I3`
matrix (its valid indices are the rows below `I1` and the columns below `I3`) with
`s( i1, i3 ) = t( i1, i2, i3 )`, and `get_lateral_slice_fwd` returns its `I3 x I1`
transpose. -/
theorem C11_lateral_shape_amended (uninit : (M N : Nat) → matrix M N T)
    (t : tensor3 I1 I2 I3 T) (i2 : Fin I2) (d : matrix I1 I3 T) (e : matrix I3 I1 T) :
    ∃ s, t.get_lateral_slice_bwd i2 d = some s ∧
      (∀ row col : Nat, (matrix.at_ s row col).isSome = true ↔ row < I1 ∧ col < I3) ∧
      (∀ (i1 : Fin I1) (i3 : Fin I3), matrix.at_ s i1 i3 = some (t.array i3 i1 i2)) ∧
      t.get_lateral_slice_fwd uninit i2 e = some (matrix.transpose s) ∧
      (∀ row col : Nat,
        (matrix.at_ (matrix.transpose s) row col).isSome = true ↔ row < I3 ∧ col < I1) ∧
      (∀ (i1 : Fin I1) (i3 : Fin I3),
        matrix.at_ (matrix.transpose s) i3 i1 = some (t.array i3 i1 i2)) := by
  refine ⟨_, tensor3.get_lateral_slice_bwd_eq t i2 i2.isLt d, ?_, ?_, ?_, ?_, ?_⟩
  · intro row col
    unfold matrix.at_
    split <;> simp [*]
  · intro i1 i3
    rw [matrix.at_of_lt _ _ _ i1.isLt i3.isLt]
  · rw [tensor3.get_lateral_slice_fwd_eq uninit t i2 i2.isLt e]
    rfl
  · intro row col
    unfold matrix.at_
    split <;> simp [*]
  · intro i1 i3
    rw [matrix.at_of_lt _ _ _ i3.isLt i1.isLt]
    rfl

/-- C12: writing `v` through `at( i1, i2, i3 )`, or through `operator()`, at a valid index
succeeds; reading the same index then returns `v`, and every other valid index reads as
before. -/
theorem C12_at_write_read (t : tensor3 I1 I2 I3 T) (i1 : Fin I1) (i2 : Fin I2) (i3 : Fin I3)
    (v : T) :
    ∃ u, t.set_at i1 i2 i3 v = some u ∧ t.set_operator_call i1 i2 i3 v = some u ∧
      u.at_ i1 i2 i3 = some v ∧ u.operator_call i1 i2 i3 = some v ∧
      ∀ (j1 : Fin I1) (j2 : Fin I2) (j3 : Fin I3), ¬ (j1 = i1 ∧ j2 = i2 ∧ j3 = i3) →
        u.at_ j1 j2 j3 = t.at_ j1 j2 j3 ∧ u.operator_call j1 j2 j3 = t.at_ j1 j2 j3 := by
  have hat : ∀ (j1 : Fin I1) (j2 : Fin I2) (j3 : Fin I3),
      (tensor3.mk (fun k r c => if k = i3 ∧ r = i1 ∧ c = i2 then v else t.array k r c)).at_
        j1 j2 j3 = some (if j3 = i3 ∧ j1 = i1 ∧ j2 = i2 then v else t.array j3 j1 j2) :=
    fun j1 j2 j3 => tensor3.at_of_fin _ j1 j2 j3
  refine ⟨_, tensor3.set_at_of_fin t i1 i2 i3 v, tensor3.set_at_of_fin t i1 i2 i3 v,
    ?_, ?_, ?_⟩
  · rw [hat]; simp
  · unfold tensor3.operator_call; rw [hat]; simp
  · intro j1 j2 j3 hne
    have hne2 : ¬ (j3 = i3 ∧ j1 = i1 ∧ j2 = i2) := fun h => hne ⟨h.2.1, h.2.2, h.1⟩
    unfold tensor3.operator_call
    rw [hat, if_neg hne2, tensor3.at_of_fin]
    exact ⟨rfl, rfl⟩

/-- C13: `export_to` returns a sequence of exactly `I1 * I2 * I3` values, and `import_from`
of that sequence into any tensor `u` of the same shape returns a tensor equal to `t` under
`operator==`. -/
theorem C13_export_import_roundtrip [Zero T] [DecidableEq T] (t u : tensor3 I1 I2 I3 T)
    (data : List T) :
    ∃ e, t.export_to data = some e ∧ e.length = I1 * I2 * I3 ∧
      ∃ r, u.import_from e = some r ∧ r.operator_eq t = true := by
  obtain ⟨e, he, hlen, hval⟩ := t.export_to_spec data
  refine ⟨e, he, hlen, _, tensor3.import_from_eq u e, ?_⟩
  rw [tensor3.operator_eq_iff]
  cases t with
  | mk arr =>
    congr 1
    funext k r c
    rw [hval r c k]
    rfl

/-- C14: `import_from( d )` returns for an input of any length, and afterwards the element at
iterator position `k` is `d[ k ]` when `k` is below the length of `d` and `0` otherwise. -/
theorem C14_import_from_zero_fill [Zero T] (t : tensor3 I1 I2 I3 T) (d : List T) :
    ∃ u, t.import_from d = some u ∧
      ∀ k : Fin (I1 * I2 * I3),
        u.iterator_read k = some (if h : k.val < d.length then d[k.val] else 0) := by
  refine ⟨_, tensor3.import_from_eq t d, ?_⟩
  intro k
  obtain ⟨q1, q2, q3, hq⟩ := offset_surjective k.isLt
  have hval : (if h : k.val < d.length then d[k.val] else (0 : T)) = (d[k.val]?).getD 0 := by
    split
    · rename_i h; rw [List.getElem?_eq_getElem h]; rfl
    · rename_i h; rw [List.getElem?_eq_none (by omega)]; rfl
  rw [hval, ← hq, tensor3.iterator_read_offset]

end access_claims

/-! ## The Frobenius sum and the additive identity -/

section norm_claims

variable {T : Type} {I1 I2 I3 : Nat}

/-- C16, as stated, fails: on an `int` tensor holding `50000` the product `*it * *it` is
formed in `int` before it is added to the `double` accumulator, so the accumulated value is
`-1794967296`, not the square `2500000000`. -/
theorem C16_frobenius_overflow_counterexample :
    single_50000.frobenius_norm_sum mul_int32 (fun v => v) = some (-1794967296) ∧
    single_50000.array 0 0 0 * single_50000.array 0 0 0 = 2500000000 ∧
    single_50000.frobenius_norm_sum mul_int32 (fun v => v)
      ≠ some (single_50000.array 0 0 0 * single_50000.array 0 0 0) := by
  decide

/-- C16, amended: when the additions of the accumulator are exact, the value accumulated by
`frobenius_norm` before the square root is the sum over all valid indices of the products
`t( i1, i2, i3 ) * t( i1, i2, i3 )` formed in the element type and converted to `double`, and
the result is its square root; for a `2 x 2 x 2` tensor after `fill_increasing_values`, when
the squares of `0, ..., 7` are formed and converted exactly, the accumulated value is `140` and
the result is the square root of `140`. -/
theorem C16_frobenius_norm_amended {D R : Type} [AddCommMonoidWithOne D] [NatCast T]
    (mul : T → T → T) (widen : T → D) (sqrt : D → R) (t : tensor3 I1 I2 I3 T)
    (g : tensor3 2 2 2 T)
    (hexact : ∀ n : Fin 8,
      widen (mul ((n.val : Nat) : T) ((n.val : Nat) : T)) = ((n.val * n.val : Nat) : D)) :
    t.frobenius_norm_sum mul widen
        = some (∑ i3 : Fin I3, ∑ i1 : Fin I1, ∑ i2 : Fin I2,
            widen (mul (t.array i3 i1 i2) (t.array i3 i1 i2))) ∧
    t.frobenius_norm mul widen sqrt
        = some (sqrt (∑ i3 : Fin I3, ∑ i1 : Fin I1, ∑ i2 : Fin I2,
            widen (mul (t.array i3 i1 i2) (t.array i3 i1 i2)))) ∧
    ((g.fill_increasing_values).bind fun f => f.frobenius_norm_sum mul widen)
        = some ((140 : Nat) : D) ∧
    ((g.fill_increasing_values).bind fun f => f.frobenius_norm mul widen sqrt)
        = some (sqrt ((140 : Nat) : D)) := by
  have key : ∀ (k r c : Fin 2),
      widen (mul ((k.val * (2 * 2) + r.val * 2 + c.val : Nat) : T)
        ((k.val * (2 * 2) + r.val * 2 + c.val : Nat) : T))
      = (((k.val * (2 * 2) + r.val * 2 + c.val) * (k.val * (2 * 2) + r.val * 2 + c.val)
          : Nat) : D) :=
    fun k r c => hexact ⟨k.val * (2 * 2) + r.val * 2 + c.val, by omega⟩
  have hsum : (∑ k : Fin 2, ∑ r : Fin 2, ∑ c : Fin 2,
      (k.val * (2 * 2) + r.val * 2 + c.val) * (k.val * (2 * 2) + r.val * 2 + c.val))
      = 140 := by decide
  have h140 : ((g.fill_increasing_values).bind fun f => f.frobenius_norm_sum mul widen)
      = some ((140 : Nat) : D) := by
    rw [tensor3.fill_increasing_values_eq, Option.some_bind, tensor3.frobenius_norm_sum_eq]
    simp only [key, ← Nat.cast_sum]
    rw [hsum]
  refine ⟨tensor3.frobenius_norm_sum_eq mul widen t, ?_, h140, ?_⟩
  · unfold tensor3.frobenius_norm
    rw [tensor3.frobenius_norm_sum_eq, Option.map_some']
  · rw [tensor3.fill_increasing_values_eq, Option.some_bind] at h140 ⊢
    unfold tensor3.frobenius_norm
    rw [h140, Option.map_some']

/-- C16, amended, at a concrete input: with the 32-bit product on `int`, which forms the squares
of `0, ..., 7` exactly, the accumulated value after `fill_increasing_values` on a `2 x 2 x 2`
tensor is `140`. -/
theorem C16_frobenius_norm_amended_witness :
    (∀ n : Fin 8, mul_int32 ((n.val : Nat) : Int) ((n.val : Nat) : Int)
      = ((n.val * n.val : Nat) : Int)) ∧
    (((minus_ones 2 2 2).fill_increasing_values).bind
        fun f => f.frobenius_norm_sum mul_int32 (fun v => v)) = some ((140 : Nat) : Int) :=
  ⟨by decide,
    (C16_frobenius_norm_amended mul_int32 (fun v => v) (fun v => v) increasing_2x2x2
      (minus_ones 2 2 2) (by decide)).2.2.1⟩

/-- C17: for the zero tensor `z` produced by `zero()`, `t + z` equals `t` under `operator==`;
`operator+` is a `const` method and returns the sum only. -/
theorem C17_zero_additive_identity [CommRing T] [DecidableEq T] (t z0 : tensor3 I1 I2 I3 T) :
    ∃ z r, z0.zero = some z ∧ t.operator_add z = some r ∧ r.operator_eq t = true := by
  refine ⟨_, _, tensor3.fill_eq z0 0, tensor3.operator_add_assign_eq t _, ?_⟩
  rw [tensor3.operator_eq_iff]
  cases t with
  | mk arr =>
    congr 1
    funext k r c
    simp

end norm_claims

/-! ## Comparison with a tolerance, bounds and batch extents -/

section bounds_claims

variable {T : Type} {I1 I2 I3 J1 J2 J3 : Nat}

/-- C18: if `a` and `b` agree at every index except one, where they differ by exactly
`ε ≥ 0`, then `a.equals( b, tol )` is true for `tol ≥ ε` and false for `tol < ε`; in general
`equals` is true exactly when `|a( i1, i2, i3 ) - b( i1, i2, i3 )| ≤ tol` at every valid
index. -/
theorem C18_equals_tolerance [LinearOrderedCommRing T] (a b : tensor3 I1 I2 I3 T)
    (i1 : Fin I1) (i2 : Fin I2) (i3 : Fin I3) (ε tol : T) (hε : 0 ≤ ε)
    (hagree : ∀ (j1 : Fin I1) (j2 : Fin I2) (j3 : Fin I3),
      ¬ (j1 = i1 ∧ j2 = i2 ∧ j3 = i3) → a.array j3 j1 j2 = b.array j3 j1 j2)
    (hdiff : |a.array i3 i1 i2 - b.array i3 i1 i2| = ε) :
    (ε ≤ tol → a.equals b tol = true) ∧ (tol < ε → a.equals b tol = false) ∧
    ∀ (c d : tensor3 I1 I2 I3 T) (τ : T),
      c.equals d τ = true
        ↔ ∀ (j1 : Fin I1) (j2 : Fin I2) (j3 : Fin I3),
            |c.array j3 j1 j2 - d.array j3 j1 j2| ≤ τ := by
  refine ⟨?_, ?_, fun c d τ => tensor3.equals_iff c d τ⟩
  · intro htol
    rw [tensor3.equals_iff]
    intro j1 j2 j3
    by_cases h : j1 = i1 ∧ j2 = i2 ∧ j3 = i3
    · obtain ⟨h1, h2, h3⟩ := h
      subst h1 h2 h3
      rw [hdiff]; exact htol
    · rw [hagree j1 j2 j3 h, sub_self, abs_zero]
      exact le_trans hε htol
  · intro htol
    rw [Bool.eq_false_iff]
    intro heq
    rw [tensor3.equals_iff] at heq
    have := heq i1 i2 i3
    rw [hdiff] at this
    exact absurd this (not_le.mpr htol)

/-- C18 at a concrete input: `increasing_2x2x2` and `bumped_2x2x2` differ by `3` at
`( 1, 0, 1 )` only; they compare equal at tolerance `3` and unequal at tolerance `2`. -/
theorem C18_equals_tolerance_witness :
    ((0 : Int) ≤ 3 ∧
      (∀ (j1 j2 j3 : Fin 2), ¬ (j1 = 1 ∧ j2 = 0 ∧ j3 = 1) →
        increasing_2x2x2.array j3 j1 j2 = bumped_2x2x2.array j3 j1 j2) ∧
      |increasing_2x2x2.array 1 1 0 - bumped_2x2x2.array 1 1 0| = 3) ∧
    increasing_2x2x2.equals bumped_2x2x2 3 = true ∧
    increasing_2x2x2.equals bumped_2x2x2 2 = false :=
  ⟨⟨by decide, by decide, by decide⟩,
    (C18_equals_tolerance increasing_2x2x2 bumped_2x2x2 1 0 1 3 3 (by decide) (by decide)
      (by decide)).1 (by decide),
    (C18_equals_tolerance increasing_2x2x2 bumped_2x2x2 1 0 1 3 2 (by decide) (by decide)
      (by decide)).2.1 (by decide)⟩

/-- C19: `at( i1, i2, i3 )` fails exactly when `i3 ≥ I3` or `i1 ≥ I1` or `i2 ≥ I2`; for
`i3 < I3` it is the checked access `at( i1, i2 )` of the frontal slice `i3`, and for an index in
range it returns that element; `operator()` returns what `at` returns. -/
theorem C19_at_bounds (t : tensor3 I1 I2 I3 T) (i1 i2 i3 : Nat) :
    (t.at_ i1 i2 i3 = none ↔ (i3 ≥ I3 ∨ i1 ≥ I1 ∨ i2 ≥ I2)) ∧
    (∀ h3 : i3 < I3, t.at_ i1 i2 i3 = matrix.at_ (t.array ⟨i3, h3⟩) i1 i2) ∧
    (∀ (h1 : i1 < I1) (h2 : i2 < I2) (h3 : i3 < I3),
      t.at_ i1 i2 i3 = some (t.array ⟨i3, h3⟩ ⟨i1, h1⟩ ⟨i2, h2⟩)) ∧
    t.operator_call i1 i2 i3 = t.at_ i1 i2 i3 := by
  have hslice : ∀ h3 : i3 < I3, t.at_ i1 i2 i3 = matrix.at_ (t.array ⟨i3, h3⟩) i1 i2 := by
    intro h3
    unfold tensor3.at_
    rw [if_neg (by omega), tensor3.slice_of_lt t i3 h3, Option.some_bind]
  refine ⟨?_, hslice, ?_, rfl⟩
  · by_cases h3 : i3 < I3
    · rw [hslice h3]
      unfold matrix.at_
      by_cases h12 : i1 < I1 ∧ i2 < I2
      · rw [dif_pos h12]
        simp only [reduceCtorEq, false_iff]
        omega
      · rw [dif_neg h12]
        simp only [true_iff]
        omega
    · unfold tensor3.at_
      rw [if_pos (by omega)]
      simp only [true_iff]
      omega
  · intro h1 h2 h3
    rw [hslice h3, matrix.at_of_lt _ _ _ h1 h2]

/-- C20, as stated, fails: the destination `tensor3< 3, 1, 2 >` with the source
`tensor3< 2, 2, 2 >` and a `3 x 2` factor type-checks for `multiply_lateral_bwd`, yet the loop
index `i2 = 1` is outside the destination and the call fails; and on the destination
`tensor3< 3, 3, 2 >` holding `-1` the call returns with the slice `i2 = 2` not written. -/
theorem C20_batch_extent_counterexample :
    ((minus_ones 3 1 2).multiply_lateral_bwd fresh_zeros increasing_2x2x2 ones_3x2).isNone
      = true ∧
    (((minus_ones 3 3 2).multiply_lateral_bwd fresh_zeros increasing_2x2x2 ones_3x2).bind
        fun r => r.at_ 0 1 0) = some 4 ∧
    (((minus_ones 3 3 2).multiply_lateral_bwd fresh_zeros increasing_2x2x2 ones_3x2).bind
        fun r => r.at_ 0 2 0) = some (-1) := by
  decide

/-- C20, amended: the types of a mode product fix the two extents of the destination that the
slice setter takes, not the extent of the batch mode.  When the batch extent of the
destination is at least that of the source the call returns, the slices below the source
extent hold the products and the other slices of the destination are unchanged; when it is
smaller the call fails with an index out of bounds. -/
theorem C20_batch_extent_amended [CommRing T] (uninit : (M N : Nat) → matrix M N T) :
    (∀ (self : tensor3 I1 I2 I3 T) (X : tensor3 J1 J2 I3 T) (U : matrix I1 J1 T),
      (J2 ≤ I2 → ∃ r, self.multiply_lateral_bwd uninit X U = some r ∧
        ∀ (i1 : Fin I1) (i2 : Fin I2) (i3 : Fin I3),
          r.at_ i1 i2 i3
            = if h : i2.val < J2 then some (∑ j1 : Fin J1, U i1 j1 * X.array i3 j1 ⟨i2.val, h⟩)
              else self.at_ i1 i2 i3) ∧
      (I2 < J2 → self.multiply_lateral_bwd uninit X U = none)) ∧
    (∀ (self : tensor3 I1 I2 I3 T) (X : tensor3 I1 J2 J3 T) (U : matrix I2 J2 T),
      (J3 ≤ I3 → ∃ r, self.multiply_frontal_bwd uninit X U = some r ∧
        ∀ (i1 : Fin I1) (i2 : Fin I2) (i3 : Fin I3),
          r.at_ i1 i2 i3
            = if h : i3.val < J3 then some (∑ j2 : Fin J2, U i2 j2 * X.array ⟨i3.val, h⟩ i1 j2)
              else self.at_ i1 i2 i3) ∧
      (I3 < J3 → self.multiply_frontal_bwd uninit X U = none)) ∧
    (∀ (self : tensor3 I1 I2 I3 T) (X : tensor3 J1 I2 J3 T) (U : matrix I3 J3 T),
      (J1 ≤ I1 → ∃ r, self.multiply_horizontal_bwd uninit X U = some r ∧
        ∀ (i1 : Fin I1) (i2 : Fin I2) (i3 : Fin I3),
          r.at_ i1 i2 i3
            = if h : i1.val < J1 then some (∑ j3 : Fin J3, U i3 j3 * X.array j3 ⟨i1.val, h⟩ i2)
              else self.at_ i1 i2 i3) ∧
      (I1 < J1 → self.multiply_horizontal_bwd uninit X U = none)) := by
  refine ⟨?_, ?_, ?_⟩
  · intro self X U
    refine ⟨fun hJ => ⟨_, tensor3.multiply_lateral_bwd_eq uninit self X U hJ, ?_⟩,
      tensor3.multiply_lateral_bwd_none uninit self X U⟩
    intro i1 i2 i3
    rw [tensor3.at_of_fin, tensor3.at_of_fin]
    simp only []
    split <;> rfl
  · intro self X U
    refine ⟨fun hJ => ⟨_, tensor3.multiply_frontal_bwd_eq uninit self X U hJ, ?_⟩,
      tensor3.multiply_frontal_bwd_none uninit self X U⟩
    intro i1 i2 i3
    rw [tensor3.at_of_fin, tensor3.at_of_fin]
    simp only []
    split <;> rfl
  · intro self X U
    refine ⟨fun hJ => ⟨_, tensor3.multiply_horizontal_bwd_eq uninit self X U hJ, ?_⟩,
      tensor3.multiply_horizontal_bwd_none uninit self X U⟩
    intro i1 i2 i3
    rw [tensor3.at_of_fin, tensor3.at_of_fin]
    simp only []
    split <;> rfl

end bounds_claims

/-! ## Copying in, negation and tubes -/

section copy_claims

variable {T : Type} {I1 I2 I3 : Nat}

/-- C21: with `row_major_layout = false`, `set` copies `I1 * I2 * I3` input elements whatever
`end_` is: on an input shorter than the tensor it reads past `end_` and fails, on a longer one
it fills the tensor.  For the `2 x 2 x 2` tensor and the input `5, 6, 7` the copy branch fails,
while the row-major branch writes three elements and leaves the other five unchanged. -/
theorem C21_set_copy_reads_past_end (t : tensor3 I1 I2 I3 T) (data : List T) :
    (data.length < I1 * I2 * I3 → (t.set data false).isNone = true) ∧
    (I1 * I2 * I3 ≤ data.length → ∃ r, t.set data false = some r ∧
      ∀ (i1 : Fin I1) (i2 : Fin I2) (i3 : Fin I3),
        r.at_ i1 i2 i3 = data[i3.val * (I1 * I2) + i2.val * I1 + i1.val]?) ∧
    (∃ r, t.set data true = some r ∧
      ∀ (i1 : Fin I1) (i2 : Fin I2) (i3 : Fin I3),
        r.at_ i1 i2 i3
          = if i3.val * (I1 * I2) + i1.val * I2 + i2.val < data.length then
              data[i3.val * (I1 * I2) + i1.val * I2 + i2.val]?
            else t.at_ i1 i2 i3) ∧
    ((minus_ones 2 2 2).set [5, 6, 7] false).isNone = true ∧
    (((minus_ones 2 2 2).set [5, 6, 7] true).bind fun r => r.export_to [])
      = some [5, 7, 6, -1, -1, -1, -1, -1] := by
  refine ⟨?_, ?_, ?_, by decide, by decide⟩
  · intro hlen
    rw [tensor3.set_copy_none t data hlen]
    rfl
  · intro hlen
    refine ⟨_, tensor3.set_copy_eq t data hlen, ?_⟩
    intro i1 i2 i3
    have hlt : i3.val * (I1 * I2) + i2.val * I1 + i1.val < data.length :=
      Nat.lt_of_lt_of_le (offset_lt i1.isLt i2.isLt i3.isLt) hlen
    rw [tensor3.at_of_fin]
    simp only []
    rw [List.getElem?_eq_getElem hlt]
    rfl
  · refine ⟨_, tensor3.set_row_major_eq t data, ?_⟩
    intro i1 i2 i3
    rw [tensor3.at_of_fin, tensor3.at_of_fin]
    simp only []
    by_cases hlt : i3.val * (I1 * I2) + i1.val * I2 + i2.val < data.length
    · rw [if_pos hlt, List.getElem?_eq_getElem hlt]
      rfl
    · rw [if_neg hlt, List.getElem?_eq_none (by omega)]
      rfl

/-- C22: `negate()` returns the fresh storage of its local `result` scaled by `-1`, whatever
`*this` holds, and `operator-()` returns the same; for the `2 x 2 x 2` tensor holding
`0, ..., 7` and fresh storage holding zeros the result has `0` at `( 1, 1, 1 )`, where the
tensor has `7`. -/
theorem C22_negate_ignores_this [CommRing T] (uninit : (M N : Nat) → matrix M N T)
    (t : tensor3 I1 I2 I3 T) :
    (∃ r, t.negate uninit = some r ∧ t.operator_neg uninit = some r ∧
      ∀ (i1 : Fin I1) (i2 : Fin I2) (i3 : Fin I3),
        r.at_ i1 i2 i3 = some (uninit I1 I2 i1 i2 * (-1))) ∧
    ((increasing_2x2x2.negate fresh_zeros).bind fun r => r.at_ 1 1 1) = some 0 ∧
    ((increasing_2x2x2.operator_neg fresh_zeros).bind fun r => r.at_ 1 1 1) = some 0 ∧
    increasing_2x2x2.at_ 1 1 1 = some 7 := by
  refine ⟨⟨_, tensor3.operator_mul_assign_eq _ _, tensor3.operator_mul_assign_eq _ _, ?_⟩,
    by decide, by decide, by decide⟩
  intro i1 i2 i3
  rw [tensor3.at_of_fin]
  rfl

/-- C23: for `i1 < I1`, `i2 < I2` and a vector `d` of length `I3`, `set_I3_vector` (and
`set_tube`) returns a tensor whose element `( i1, i2, k )` is `d[ k ]` for every `k < I3` and
whose elements with another `( i1, i2 )` are unchanged; a following `get_I3_vector` (and
`get_tube`) returns `d`; and `get_I3_vector` alone returns the vector with
`v[ k ] = t( i1, i2, k )`. -/
theorem C23_tube_roundtrip (t : tensor3 I1 I2 I3 T) (i1 : Fin I1) (i2 : Fin I2)
    (d v0 : vector I3 T) :
    (∃ u, t.set_I3_vector i1 i2 d = some u ∧ t.set_tube i1 i2 d = some u ∧
      (∀ k : Fin I3, u.at_ i1 i2 k = some (d k)) ∧
      (∀ (j1 : Fin I1) (j2 : Fin I2) (k : Fin I3), ¬ (j1 = i1 ∧ j2 = i2) →
        u.at_ j1 j2 k = t.at_ j1 j2 k) ∧
      u.get_I3_vector i1 i2 v0 = some d ∧ u.get_tube i1 i2 v0 = some d) ∧
    (∃ v, t.get_I3_vector i1 i2 v0 = some v ∧ t.get_tube i1 i2 v0 = some v ∧
      ∀ k : Fin I3, vector.at_ v k = t.at_ i1 i2 k) := by
  refine ⟨⟨_, tensor3.set_I3_vector_eq t i1 i2 i1.isLt i2.isLt d,
    tensor3.set_I3_vector_eq t i1 i2 i1.isLt i2.isLt d, ?_, ?_, ?_, ?_⟩,
    ⟨_, tensor3.get_I3_vector_eq t i1 i2 i1.isLt i2.isLt v0,
      tensor3.get_I3_vector_eq t i1 i2 i1.isLt i2.isLt v0, ?_⟩⟩
  · intro k
    rw [tensor3.at_of_fin]
    simp
  · intro j1 j2 k hne
    have hne2 : ¬ (j1.val = i1.val ∧ j2.val = i2.val) :=
      fun h => hne ⟨Fin.ext h.1, Fin.ext h.2⟩
    rw [tensor3.at_of_fin, tensor3.at_of_fin]
    simp only [hne2, if_false]
  · rw [tensor3.get_I3_vector_eq _ i1 i2 i1.isLt i2.isLt v0]
    congr 1
    funext k
    simp
  · unfold tensor3.get_tube
    rw [tensor3.get_I3_vector_eq _ i1 i2 i1.isLt i2.isLt v0]
    congr 1
    funext k
    simp
  · intro k
    rw [vector.at_in_range _ k k.isLt, tensor3.at_of_fin]

end copy_claims

/-! ## Products on unfoldings, frames, resizing, thresholds and subtraction -/

section frame_claims

variable {T : Type} {I1 I2 I3 J1 J2 J3 : Nat}

/-- C24: each mode product is the matrix product on the matching unfolding: the lateral
unfolding of `multiply_lateral_bwd( X, U )` is `U` times the lateral unfolding of `X`, and
likewise for the frontal and the horizontal product with the frontal and the horizontal
unfolding. -/
theorem C24_products_on_unfoldings [CommRing T] (uninit : (M N : Nat) → matrix M N T)
    (X : tensor3 J1 J2 J3 T) :
    (∀ (self : tensor3 I1 J2 J3 T) (U : matrix I1 J1 T) (m0 : matrix I1 (J2 * J3) T)
        (m1 : matrix J1 (J2 * J3) T),
      ∃ r m mX, self.multiply_lateral_bwd uninit X U = some r ∧
        r.lateral_matricization_bwd uninit m0 = some m ∧
        X.lateral_matricization_bwd uninit m1 = some mX ∧ m = matrix.multiply U mX) ∧
    (∀ (self : tensor3 J1 I2 J3 T) (U : matrix I2 J2 T) (m0 : matrix I2 (J1 * J3) T)
        (m1 : matrix J2 (J1 * J3) T),
      ∃ r m mX, self.multiply_frontal_bwd uninit X U = some r ∧
        r.frontal_matricization_bwd uninit m0 = some m ∧
        X.frontal_matricization_bwd uninit m1 = some mX ∧ m = matrix.multiply U mX) ∧
    (∀ (self : tensor3 J1 J2 I3 T) (U : matrix I3 J3 T) (m0 : matrix I3 (J1 * J2) T)
        (m1 : matrix J3 (J1 * J2) T),
      ∃ r m mX, self.multiply_horizontal_bwd uninit X U = some r ∧
        r.horizontal_matricization_bwd uninit m0 = some m ∧
        X.horizontal_matricization_bwd uninit m1 = some mX ∧ m = matrix.multiply U mX) := by
  refine ⟨?_, ?_, ?_⟩
  · intro self U m0 m1
    obtain ⟨sx, hx, hxv, _⟩ := X.lateral_matricization_bwd_written_spec uninit m1
    obtain ⟨sr, hr, hrv, _⟩ := tensor3.lateral_matricization_bwd_written_spec uninit
      (tensor3.mk fun (k : Fin J3) (r : Fin I1) (c : Fin J2) =>
        if h : c.val < J2 then ∑ j : Fin J1, U r j * X.array k j ⟨c.val, h⟩
        else self.array k r c) m0
    refine ⟨_, sr.1, sx.1, tensor3.multiply_lateral_bwd_eq uninit self X U (Nat.le_refl _),
      by rw [tensor3.lateral_matricization_bwd, hr, Option.map_some'],
      by rw [tensor3.lateral_matricization_bwd, hx, Option.map_some'], ?_⟩
    funext i c
    obtain ⟨b, w, hbw⟩ := block_index_surjective c.isLt
    have hc : c = ⟨b.val * J3 + w.val, hbw.symm ▸ c.isLt⟩ := Fin.ext hbw.symm
    rw [hc, hrv i b w]
    simp only [matrix.multiply, hxv, Fin.is_lt, dite_true, Fin.eta]
  · intro self U m0 m1
    obtain ⟨sx, hx, hxv, _⟩ := X.frontal_matricization_bwd_written_spec uninit m1
    obtain ⟨sr, hr, hrv, _⟩ := tensor3.frontal_matricization_bwd_written_spec uninit
      (tensor3.mk fun (k : Fin J3) (r : Fin J1) (c : Fin I2) =>
        if h : k.val < J3 then ∑ j : Fin J2, U c j * X.array ⟨k.val, h⟩ r j
        else self.array k r c) m0
    refine ⟨_, sr.1, sx.1, tensor3.multiply_frontal_bwd_eq uninit self X U (Nat.le_refl _),
      by rw [tensor3.frontal_matricization_bwd, hr, Option.map_some'],
      by rw [tensor3.frontal_matricization_bwd, hx, Option.map_some'], ?_⟩
    funext i c
    have hlt : c.val < J3 * J1 := Nat.lt_of_lt_of_eq c.isLt (Nat.mul_comm J1 J3)
    obtain ⟨b, w, hbw⟩ := block_index_surjective hlt
    have hc : c = ⟨b.val * J1 + w.val, hbw.symm ▸ c.isLt⟩ := Fin.ext hbw.symm
    rw [hc, hrv i b w]
    simp only [matrix.multiply, hxv, Fin.is_lt, dite_true, Fin.eta]
  · intro self U m0 m1
    obtain ⟨sx, hx, hxv, _⟩ := X.horizontal_matricization_bwd_written_spec uninit m1
    obtain ⟨sr, hr, hrv, _⟩ := tensor3.horizontal_matricization_bwd_written_spec uninit
      (tensor3.mk fun (k : Fin I3) (r : Fin J1) (c : Fin J2) =>
        if h : r.val < J1 then ∑ j : Fin J3, U k j * X.array j ⟨r.val, h⟩ c
        else self.array k r c) m0
    refine ⟨_, sr.1, sx.1, tensor3.multiply_horizontal_bwd_eq uninit self X U (Nat.le_refl _),
      by rw [tensor3.horizontal_matricization_bwd, hr, Option.map_some'],
      by rw [tensor3.horizontal_matricization_bwd, hx, Option.map_some'], ?_⟩
    funext i c
    obtain ⟨b, w, hbw⟩ := block_index_surjective c.isLt
    have hc : c = ⟨b.val * J2 + w.val, hbw.symm ▸ c.isLt⟩ := Fin.ext hbw.symm
    rw [hc, hrv i b w]
    simp only [matrix.multiply, hxv, Fin.is_lt, dite_true, Fin.eta]

/-- C25: slice insertion touches only its slice.  `set_lateral_slice_bwd( i2, D )` makes
`t( i1, i2, i3 ) = D( i1, i3 )` and keeps every element with another mode-2 index;
`set_horizontal_slice_fwd( i1, D )` makes `t( i1, i2, i3 ) = D( i2, i3 )` and keeps every
element with another mode-1 index; `set_frontal_slice_fwd( i3, D )` makes
`t( i1, i2, i3 ) = D( i1, i2 )` and keeps every element with another mode-3 index. -/
theorem C25_slice_insertion_frame (t : tensor3 I1 I2 I3 T) :
    (∀ (i2 : Fin I2) (D : matrix I1 I3 T), ∃ u, t.set_lateral_slice_bwd i2 D = some u ∧
      ∀ (j1 : Fin I1) (j2 : Fin I2) (j3 : Fin I3),
        u.at_ j1 j2 j3 = if j2 = i2 then some (D j1 j3) else t.at_ j1 j2 j3) ∧
    (∀ (i1 : Fin I1) (D : matrix I2 I3 T), ∃ u, t.set_horizontal_slice_fwd i1 D = some u ∧
      ∀ (j1 : Fin I1) (j2 : Fin I2) (j3 : Fin I3),
        u.at_ j1 j2 j3 = if j1 = i1 then some (D j2 j3) else t.at_ j1 j2 j3) ∧
    (∀ (i3 : Fin I3) (D : matrix I1 I2 T), ∃ u, t.set_frontal_slice_fwd i3 D = some u ∧
      ∀ (j1 : Fin I1) (j2 : Fin I2) (j3 : Fin I3),
        u.at_ j1 j2 j3 = if j3 = i3 then some (D j1 j2) else t.at_ j1 j2 j3) := by
  refine ⟨?_, ?_, ?_⟩
  · intro i2 D
    refine ⟨_, tensor3.set_lateral_slice_bwd_eq t i2 i2.isLt D, ?_⟩
    intro j1 j2 j3
    rw [tensor3.at_of_fin, tensor3.at_of_fin]
    by_cases h : j2 = i2
    · subst h; simp
    · have h2 : ¬ j2.val = i2.val := fun e => h (Fin.ext e)
      simp [h, h2]
  · intro i1 D
    refine ⟨_, tensor3.set_horizontal_slice_fwd_eq t i1 i1.isLt D, ?_⟩
    intro j1 j2 j3
    rw [tensor3.at_of_fin, tensor3.at_of_fin]
    by_cases h : j1 = i1
    · subst h; simp
    · have h2 : ¬ j1.val = i1.val := fun e => h (Fin.ext e)
      simp [h, h2]
  · intro i3 D
    refine ⟨_, tensor3.set_frontal_slice_fwd_eq t i3 i3.isLt D, ?_⟩
    intro j1 j2 j3
    rw [tensor3.at_of_fin, tensor3.at_of_fin]
    by_cases h : j3 = i3
    · subst h; simp
    · have h2 : ¬ j3.val = i3.val := fun e => h (Fin.ext e)
      simp [h, h2]

/-- C26: the size-converting constructor returns (it makes no access outside the extents of
the source or of the result), and its element `( i, j, k )` is `source( i, j, k )` when
`i < J1`, `j < J2` and `k < J3`, that is below the three minima, and `0` at every other valid
index. -/
theorem C26_size_converting_constructor [Zero T] (uninit : (M N : Nat) → matrix M N T)
    (source : tensor3 J1 J2 J3 T) :
    ∃ r : tensor3 I1 I2 I3 T, tensor3.construct_from uninit source = some r ∧
      ∀ (i : Fin I1) (j : Fin I2) (k : Fin I3),
        r.at_ i j k
          = if i.val < min I1 J1 ∧ j.val < min I2 J2 ∧ k.val < min I3 J3 then
              source.at_ i j k
            else some 0 := by
  refine ⟨_, tensor3.construct_from_eq uninit source, ?_⟩
  intro i j k
  rw [tensor3.at_of_fin]
  simp only []
  by_cases h : i.val < J1 ∧ j.val < J2 ∧ k.val < J3
  · have hr := tensor3.at_of_fin source ⟨i.val, h.1⟩ ⟨j.val, h.2.1⟩ ⟨k.val, h.2.2⟩
    simp only [] at hr
    rw [dif_pos h, if_pos ⟨by have := i.isLt; omega, by have := j.isLt; omega,
      by have := k.isLt; omega⟩, hr]
  · rw [dif_neg h, if_neg (fun hm => h ⟨by omega, by omega, by omega⟩)]

/-- C27: after `t.range_threshold( o, a, b )` the destination holds `t( i1, i2, i3 )` at
every index where `a ≤ t( i1, i2, i3 ) ≤ b` and its prior value at every other index; the
method is `const` and returns only the new destination. -/
theorem C27_range_threshold [LinearOrder T] (t o : tensor3 I1 I2 I3 T) (a b : T) :
    ∃ r, t.range_threshold o a b = some r ∧
      ∀ (i1 : Fin I1) (i2 : Fin I2) (i3 : Fin I3),
        r.at_ i1 i2 i3
          = if a ≤ t.array i3 i1 i2 ∧ t.array i3 i1 i2 ≤ b then t.at_ i1 i2 i3
            else o.at_ i1 i2 i3 := by
  refine ⟨_, tensor3.range_threshold_eq t o a b, ?_⟩
  intro i1 i2 i3
  rw [tensor3.at_of_fin, tensor3.at_of_fin, tensor3.at_of_fin]
  simp only []
  split <;> rfl

/-- C28: `a + b` has the element `a( i1, i2, i3 ) + b( i1, i2, i3 )` at every valid index and
`( a + b ) - b` equals `a` under `operator==`; `operator+` and `operator-` are `const`
methods taking a `const` reference and return only the result. -/
theorem C28_add_sub_inverse [CommRing T] [DecidableEq T] (a b : tensor3 I1 I2 I3 T) :
    ∃ s d, a.operator_add b = some s ∧
      (∀ (i1 : Fin I1) (i2 : Fin I2) (i3 : Fin I3),
        s.at_ i1 i2 i3 = some (a.array i3 i1 i2 + b.array i3 i1 i2)) ∧
      s.operator_sub b = some d ∧ d.operator_eq a = true := by
  refine ⟨_, _, tensor3.operator_add_assign_eq a b, ?_,
    tensor3.operator_sub_assign_eq _ b, ?_⟩
  · intro i1 i2 i3
    rw [tensor3.at_of_fin]
  · rw [tensor3.operator_eq_iff]
    cases a with
    | mk arr =>
      congr 1
      funext k r c
      simp

end frame_claims

end vmml
